import Mathlib

set_option autoImplicit false

/-!
# asset-pack-rs: shallow embedding of the core transcoder

This file embeds the core of `asset-pack-rs` (the functions `unpack`,
`decode_hex` and `pack` of `src/unpacker.rs`, duplicated in `src/main.rs`)
and proves the specified properties about it.

Modelling conventions:

* Rust `String`/`&str` is modelled by Lean `String`; every string operation
  the source uses (`split("\n")`, `trim`, `starts_with`, byte-slicing of an
  ASCII prefix, `format!`) is given an explicit executable model over the
  underlying character list (`String.data`).  The texts of this format are
  ASCII; `trim` is modelled as trimming the ASCII whitespace characters.
* Rust `HashMap` is modelled by an association list with insert-or-replace
  semantics.  The source never iterates a `HashMap` (only `get`, `insert`
  and `len` are used), so hash iteration order is unobservable and the
  association list is a faithful model.
* The external container `mila::BinArchive` is out of scope for the
  repository; it is modelled from the spec boundary (spec section 6): a
  flat byte buffer plus pointer/string/label side tables keyed by address,
  with a sequential writer whose cursor advances by one 4-byte word per
  content write (`write_u32`, `write_bytes`, `write_string`) and does not
  advance on `write_label`.
-/

namespace AssetPack

/-! ## Character-level string primitives (models of Rust std operations) -/

/-- Model of ASCII whitespace for Rust `str::trim`. -/
def isWs (c : Char) : Bool := c = ' ' || c = '\t' || c = '\n' || c = '\r'

/-- Model of Rust `str::trim`: drop leading and trailing whitespace. -/
def trimChars (cs : List Char) : List Char :=
  ((cs.dropWhile isWs).reverse.dropWhile isWs).reverse

/-- Model of Rust `str::split("\n")`: split on newline separators.
`splitNl [] = [[]]`, matching Rust where `"".split("\n")` yields `[""]`. -/
def splitNl : List Char → List (List Char)
  | [] => [[]]
  | c :: rest =>
    if c = '\n' then [] :: splitNl rest
    else
      match splitNl rest with
      | [] => [[c]]
      | l :: ls => (c :: l) :: ls

/-- Model of Rust `Vec::join("\n")`: interleave a newline between lines. -/
def joinNl : List (List Char) → List Char
  | [] => []
  | [l] => l
  | l :: ls => l ++ '\n' :: joinNl ls

/-- Model of Rust `str::starts_with` (first argument is the pattern). -/
def hasLead : List Char → List Char → Bool
  | [], _ => true
  | _ :: _, [] => false
  | p :: ps, c :: cs => p = c && hasLead ps cs

/-- Decimal digit character, used to model Rust `format!("{}", n)`. -/
def digitChar (n : Nat) : Char := Char.ofNat (48 + n % 10)

/-- Little-endian decimal digits of a natural number; the first argument is
fuel (any amount at least the number itself suffices, since dividing by 10
only shrinks it). -/
def natToRevDigits : Nat → Nat → List Char
  | _, 0 => []
  | 0, _ + 1 => []
  | fuel + 1, n + 1 => digitChar ((n + 1) % 10) :: natToRevDigits fuel ((n + 1) / 10)

/-- Model of Rust `format!("{}", n)` for a `usize`: decimal, no sign, no
padding. -/
def natToChars (n : Nat) : List Char :=
  if n = 0 then ['0'] else (natToRevDigits n n).reverse

def natToStr (n : Nat) : String := ⟨natToChars n⟩

/-- Uppercase hexadecimal digit character, for Rust `format!("{:02X}", b)`. -/
def hexDigitChar (n : Nat) : Char :=
  if n < 10 then Char.ofNat (48 + n) else Char.ofNat (55 + n)

/-- Model of Rust `format!("{:02X}", b)` for a byte value: exactly two
uppercase hex digits. -/
def byteToHexChars (b : Nat) : List Char :=
  [hexDigitChar (b / 16 % 16), hexDigitChar (b % 16)]

/-- Value of a hexadecimal digit character (`0-9`, `a-f`, `A-F`), as accepted
by Rust `u8::from_str_radix(_, 16)`. -/
def hexVal (c : Char) : Option Nat :=
  if '0' ≤ c ∧ c ≤ '9' then some (c.toNat - 48)
  else if 'a' ≤ c ∧ c ≤ 'f' then some (c.toNat - 87)
  else if 'A' ≤ c ∧ c ≤ 'F' then some (c.toNat - 55)
  else none

/-- Model of Rust `u8::from_str_radix(s, 16)` for a two-character slice.
For an unsigned target type `from_str_radix` accepts an optional leading
`+` sign (`"+D"` parses as `0xD`); a `-` sign is not a valid digit for an
unsigned type, so any group led by `-` fails. -/
def parseHexPair (c1 c2 : Char) : Option Nat :=
  match hexVal c1, hexVal c2 with
  | some a, some b => some (16 * a + b)
  | _, _ => if c1 = '+' then hexVal c2 else none

/-- Parse consecutive two-character groups of an even-length hex string. -/
def hexPairs : List Char → Option (List Nat)
  | [] => some []
  | [_] => none
  | c1 :: c2 :: rest =>
    match parseHexPair c1 c2, hexPairs rest with
    | some b, some bs => some (b :: bs)
    | _, _ => none

/-! ## Association lists (model of Rust `HashMap`)

Only `get`, `insert` and `len` are used by the source, so the map is
modelled as an association list in insertion order: `alInsert` replaces the
entry of an existing key in place and appends a fresh key at the end, so
the list length equals `HashMap::len`. -/

def alGet {α β : Type} [DecidableEq α] : List (α × β) → α → Option β
  | [], _ => none
  | (k, v) :: rest, k' => if k = k' then some v else alGet rest k'

def alInsert {α β : Type} [DecidableEq α] : List (α × β) → α → β → List (α × β)
  | [], k, v => [(k, v)]
  | (k0, v0) :: rest, k, v =>
    if k0 = k then (k, v) :: rest else (k0, v0) :: alInsert rest k v

/-! ## The archive container (modelled from the spec boundary, section 6) -/

/-- Model of `mila::BinArchive`: an ordered byte buffer plus pointer, string
and label side tables keyed by (word) address.  Modelled from the spec:
the container itself is an external collaborator of the repository,
specified only at the boundary. -/
structure BinArchive where
  data : List Nat
  pointers : List (Nat × Nat)
  strings : List (Nat × String)
  labels : List (Nat × List String)
deriving DecidableEq

def BinArchive.size (a : BinArchive) : Nat := a.data.length

def BinArchive.read_pointer (a : BinArchive) (addr : Nat) : Option Nat :=
  alGet a.pointers addr

def BinArchive.read_string (a : BinArchive) (addr : Nat) : Option String :=
  alGet a.strings addr

def BinArchive.read_labels (a : BinArchive) (addr : Nat) : Option (List String) :=
  alGet a.labels addr

/-- `read_bytes(addr, n)`: the `n` bytes starting at `addr`. -/
def BinArchive.read_bytes (a : BinArchive) (addr n : Nat) : List Nat :=
  (List.range n).map (fun i => a.data.getD (addr + i) 0)

/-- The word addresses `0, 4, 8, ...` visited by `(0..size).step_by(4)`. -/
def wordAddrs (size : Nat) : List Nat :=
  (List.range ((size + 3) / 4)).map (· * 4)

/-! ## unpack (src/unpacker.rs lines 5-43) -/

/-- The pointer discovery pass of `unpack`: left-to-right scan over word
addresses; the first component is the `pointers` map (source address to ID),
the second the `pointer_destinations` map (target address to ID).  A fresh
target is assigned ID `pointer_destinations.len()`. -/
def discoverStep (a : BinArchive) (st : List (Nat × Nat) × List (Nat × Nat))
    (addr : Nat) : List (Nat × Nat) × List (Nat × Nat) :=
  match a.read_pointer addr with
  | some ptr =>
    let id :=
      match alGet st.2 ptr with
      | some id => id
      | none => st.2.length
    (alInsert st.1 addr id, alInsert st.2 ptr id)
  | none => st

def discover (a : BinArchive) : List (Nat × Nat) × List (Nat × Nat) :=
  (wordAddrs a.size).foldl (discoverStep a) ([], [])

def destLineChars (id : Nat) : List Char := "DEST: ".data ++ natToChars id
def srcLineChars (id : Nat) : List Char := "SRC: ".data ++ natToChars id
def labelLineChars (label : String) : List Char := "LABEL: ".data ++ label.data

/-- The raw-data fallback line `0x` followed by 8 uppercase hex digits,
most significant byte of the word first. -/
def hexLineChars (bytes : List Nat) : List Char :=
  "0x".data ++ byteToHexChars (bytes.getD 0 0) ++ byteToHexChars (bytes.getD 1 0)
    ++ byteToHexChars (bytes.getD 2 0) ++ byteToHexChars (bytes.getD 3 0)

/-- One iteration of the emission loop of `unpack`: push the `DEST:` line,
the `LABEL:` lines and the single content line for one word address. -/
def unpackStep (a : BinArchive) (ptrs dests : List (Nat × Nat))
    (lines : List (List Char)) (addr : Nat) : List (List Char) :=
  let lines :=
    match alGet dests addr with
    | some id => lines ++ [destLineChars id]
    | none => lines
  let lines :=
    match a.read_labels addr with
    | some labels => lines ++ labels.map labelLineChars
    | none => lines
  let content :=
    match alGet ptrs addr with
    | some id => srcLineChars id
    | none =>
      match a.read_string addr with
      | some text => text.data
      | none => hexLineChars (a.read_bytes addr 4)
  lines ++ [content]

/-- The lines emitted by `unpack`, in order. -/
def unpackLines (a : BinArchive) : List (List Char) :=
  let st := discover a
  (wordAddrs a.size).foldl (unpackStep a st.1 st.2) []

/-- `unpack` (src/unpacker.rs line 5): archive to text, lines joined by a
single newline. -/
def unpack (a : BinArchive) : String := ⟨joinNl (unpackLines a)⟩

/-! ## decode_hex and pack (src/unpacker.rs lines 46-103) -/

/-- `decode_hex` (src/unpacker.rs line 46) over the character list of the
string: odd length is an error, otherwise each two-character group is parsed
by `u8::from_str_radix(_, 16)`. -/
def decodeHexChars (s : List Char) : Except String (List Nat) :=
  if s.length % 2 ≠ 0 then .error "Hex string has odd length"
  else
    match hexPairs s with
    | some bs => .ok bs
    | none => .error "invalid digit found in string"

def decode_hex (s : String) : Except String (List Nat) := decodeHexChars s.data

/-- Write bytes into the buffer starting at `addr` (the buffer does not
grow: the archive was allocated up front). -/
def writeBytesAt (data : List Nat) (addr : Nat) : List Nat → List Nat
  | [] => data
  | b :: rest => writeBytesAt (data.set addr b) (addr + 1) rest

/-- `BinArchiveWriter::write_bytes` / `write_u32` on the modelled container:
write the bytes of one word into the buffer. -/
def writeWord (a : BinArchive) (addr : Nat) (bytes : List Nat) : BinArchive :=
  { a with data := writeBytesAt a.data addr bytes }

/-- `BinArchiveWriter::write_string(Some _)` on the modelled container:
record the string at the address (the word's buffer bytes hold a
serialization-time text offset, not modelled). -/
def writeString (a : BinArchive) (addr : Nat) (text : List Char) : BinArchive :=
  { a with strings := alInsert a.strings addr ⟨text⟩ }

/-- `BinArchiveWriter::write_label` on the modelled container: append one
label to the label list at the address. -/
def writeLabel (a : BinArchive) (addr : Nat) (name : List Char) : BinArchive :=
  { a with
    labels :=
      match alGet a.labels addr with
      | some ls => alInsert a.labels addr (ls ++ [(⟨name⟩ : String)])
      | none => alInsert a.labels addr [(⟨name⟩ : String)] }

/-- `BinArchive::write_pointer(addr, Some dest)`. -/
def writePointer (a : BinArchive) (addr dest : Nat) : BinArchive :=
  { a with pointers := alInsert a.pointers addr dest }

/-- State of the write pass of `pack`: the destination map `pointers`, the
pending list `pointer_sources`, the archive being built and the writer
cursor. -/
structure PackState where
  pointers : List (List Char × Nat)
  pointer_sources : List (Nat × List Char)
  archive : BinArchive
  pos : Nat
deriving DecidableEq

/-- One iteration of the write pass of `pack` (src/unpacker.rs lines 69-93)
on the `i`-th (0-based) trimmed line. -/
def packLine (st : PackState) (i : Nat) (line : List Char) :
    Except String PackState :=
  if hasLead "DEST:".data line then
    .ok { st with pointers := alInsert st.pointers (trimChars (line.drop 5)) st.pos }
  else if hasLead "SRC:".data line then
    .ok { st with
          pointer_sources := st.pointer_sources ++ [(st.pos, trimChars (line.drop 4))],
          archive := writeWord st.archive st.pos [0, 0, 0, 0],
          pos := st.pos + 4 }
  else if hasLead "LABEL:".data line then
    .ok { st with archive := writeLabel st.archive st.pos (trimChars (line.drop 6)) }
  else if hasLead "0x".data line then
    match decodeHexChars (line.drop 2) with
    | .error _ => .error ("Bad hex string at line " ++ natToStr (i + 1))
    | .ok bytes =>
      if bytes.length = 4 then
        .ok { st with archive := writeWord st.archive st.pos bytes, pos := st.pos + 4 }
      else
        .error ("Hex string has incorrect length at line " ++ natToStr (i + 1))
  else
    .ok { st with archive := writeString st.archive st.pos line, pos := st.pos + 4 }

/-- The write pass of `pack`: process the lines in order, threading the
state; the first failing line aborts. -/
def packLoop (st : PackState) (i : Nat) : List (List Char) → Except String PackState
  | [] => .ok st
  | line :: rest =>
    match packLine st i line with
    | .error e => .error e
    | .ok st2 => packLoop st2 (i + 1) rest

/-- The resolution pass of `pack` (src/unpacker.rs lines 94-101): for each
pending source, look its ID token up in the destination map and write the
pointer, or fail with an unresolved-pointer error. -/
def resolve (a : BinArchive) (pointers : List (List Char × Nat)) :
    List (Nat × List Char) → Except String BinArchive
  | [] => .ok a
  | (addr, pointer_id) :: rest =>
    match alGet pointers pointer_id with
    | some dest => resolve (writePointer a addr dest) pointers rest
    | none => .error ("Unresolved pointer " ++ (⟨pointer_id⟩ : String))

/-- The size filter of `pack`: a line counts toward the archive size iff it
is not a label line, not a destination-marker line, and not empty. -/
def contentBearing (l : List Char) : Bool :=
  !hasLead "LABEL:".data l && !hasLead "DEST:".data l && !l.isEmpty

/-- The trimmed line list of an input text. -/
def linesOf (text : String) : List (List Char) :=
  (splitNl text.data).map trimChars

/-- Initial write-pass state of `pack`: empty maps, a zero-initialized
archive of `4 * (number of content-bearing lines)` bytes, cursor 0. -/
def packInit (text : String) : PackState :=
  { pointers := []
    pointer_sources := []
    archive :=
      { data := List.replicate (((linesOf text).filter contentBearing).length * 4) 0
        pointers := [], strings := [], labels := [] }
    pos := 0 }

/-- `pack` (src/unpacker.rs line 57): split the text on newlines, trim each
line, allocate `4 * (number of content-bearing lines)` zero bytes, run the
write pass from cursor 0, then the resolution pass. -/
def pack (text : String) : Except String BinArchive :=
  match packLoop (packInit text) 0 (linesOf text) with
  | .error e => .error e
  | .ok st => resolve st.archive st.pointers st.pointer_sources

/-! ## Derived descriptions used by the theorems -/

/-- Accumulate an element if it has not been seen yet. -/
def seenAdd (acc : List Nat) (x : Nat) : List Nat :=
  if x ∈ acc then acc else acc ++ [x]

def firstOccurFrom (acc : List Nat) (l : List Nat) : List Nat := l.foldl seenAdd acc

/-- The distinct elements of a list, in order of first occurrence. -/
def firstOccur (l : List Nat) : List Nat := firstOccurFrom [] l

/-- Index of the first occurrence of `x` in a list. -/
def idxOf (x : Nat) : List Nat → Nat
  | [] => 0
  | y :: l => if y = x then 0 else idxOf x l + 1

/-- The association list entries `(x, i)` for the elements of `l`, indexed
from `i0`. -/
def enumAListFrom (i0 : Nat) : List Nat → List (Nat × Nat)
  | [] => []
  | x :: l => (x, i0) :: enumAListFrom (i0 + 1) l

/-- The association list sending the `i`-th element of `l` to `i`. -/
def enumAList (l : List Nat) : List (Nat × Nat) := enumAListFrom 0 l

/-- Value of a little-endian decimal digit character list. -/
def digitsVal : List Char → Nat
  | [] => 0
  | c :: rest => (c.toNat - 48) + 10 * digitsVal rest

/-- The pointer targets read along a list of addresses, in order, one
occurrence per pointer-holding address. -/
def targetsOf (a : BinArchive) (l : List Nat) : List Nat :=
  l.filterMap a.read_pointer

/-- The source-to-ID entries read along a list of addresses, with IDs taken
as indices into the target list `F`. -/
def srcEntriesOf (a : BinArchive) (F : List Nat) (l : List Nat) : List (Nat × Nat) :=
  l.filterMap (fun w => (a.read_pointer w).map (fun t => (w, idxOf t F)))

/-- The pointer targets of the archive in the order their sources are met by
the left-to-right scan of `unpack` (with one occurrence per source). -/
def scanTargets (a : BinArchive) : List Nat :=
  (wordAddrs a.size).filterMap a.read_pointer

/-- The pointer targets in order of first source occurrence: target number
`i` of this list is assigned ID `i` by the discovery pass. -/
def destIdList (a : BinArchive) : List Nat := firstOccur (scanTargets a)

/-- The source-address-to-ID map of the discovery pass, described directly:
each source maps to the index of its target in `destIdList`. -/
def srcAList (a : BinArchive) : List (Nat × Nat) :=
  (wordAddrs a.size).filterMap
    (fun w => (a.read_pointer w).map (fun t => (w, idxOf t (destIdList a))))

/-- The lines `unpack` emits for one word address, stated as the spec gives
them: a destination marker if the address is a discovered pointer target,
then one label line per attached label in stored order, then exactly one
content line chosen by priority source/string/raw-hex. -/
def addrLines (a : BinArchive) (ptrs dests : List (Nat × Nat)) (addr : Nat) :
    List (List Char) :=
  (match alGet dests addr with
   | some id => [destLineChars id]
   | none => []) ++
  (match a.read_labels addr with
   | some labels => labels.map labelLineChars
   | none => []) ++
  [match alGet ptrs addr with
   | some id => srcLineChars id
   | none =>
     match a.read_string addr with
     | some text => text.data
     | none => hexLineChars (a.read_bytes addr 4)]

/-- The trimmed ID tokens of the `SRC:` lines of a line list, in order. -/
def srcTokens (lines : List (List Char)) : List (List Char) :=
  lines.filterMap
    (fun l => if hasLead "SRC:".data l then some (trimChars (l.drop 4)) else none)

/-- The trimmed ID tokens of the `DEST:` lines of a line list. -/
def destTokens (lines : List (List Char)) : List (List Char) :=
  lines.filterMap
    (fun l => if hasLead "DEST:".data l then some (trimChars (l.drop 5)) else none)

/-- Classify a line the write pass fails on: `some true` for a `0x` line
whose remainder does not hex-decode, `some false` for one that decodes to a
byte count other than 4, `none` for every line the write pass accepts. -/
def badHex (l : List Char) : Option Bool :=
  if hasLead "0x".data l then
    match decodeHexChars (l.drop 2) with
    | .error _ => some true
    | .ok bytes => if bytes.length = 4 then none else some false
  else none

/-- Number of words of the archive visited by the scan. -/
def wordCount (a : BinArchive) : Nat := (a.size + 3) / 4

/-- Destination map built by the write pass after the first `k` word
groups: the DEST token of each target among the first `k` addresses, sent
to that target address. -/
def destMapUpTo (a : BinArchive) (k : Nat) : List (List Char × Nat) :=
  (List.range k).filterMap
    (fun j => (alGet (discover a).2 (4 * j)).map (fun id => (natToChars id, 4 * j)))

/-- Pending source list built by the write pass after the first `k` word
groups. -/
def srcListUpTo (a : BinArchive) (k : Nat) : List (Nat × List Char) :=
  (List.range k).filterMap
    (fun j => (alGet (discover a).1 (4 * j)).map (fun id => (4 * j, natToChars id)))

/-- String table built by the write pass after the first `k` word groups. -/
def stringsUpTo (a : BinArchive) (k : Nat) : List (Nat × String) :=
  (List.range k).filterMap
    (fun j =>
      if alGet (discover a).1 (4 * j) = none then
        (a.read_string (4 * j)).map (fun s => (4 * j, s))
      else none)

/-- Label table built by the write pass after the first `k` word groups. -/
def labelsUpTo (a : BinArchive) (k : Nat) : List (Nat × List String) :=
  (List.range k).filterMap
    (fun j =>
      match a.read_labels (4 * j) with
      | some (l :: ls) => some (4 * j, l :: ls)
      | _ => none)

/-- The byte at buffer index `idx` after the write pass has replayed the
first `k` word groups: zero words for pointer sources and strings, the
original bytes (reduced mod 256, as a `u8` holds them) for raw words, zero
for words not yet written. -/
def packedByte (a : BinArchive) (k idx : Nat) : Nat :=
  if idx / 4 < k then
    if alGet (discover a).1 (4 * (idx / 4)) = none ∧
        a.read_string (4 * (idx / 4)) = none then
      a.data.getD idx 0 % 256
    else 0
  else 0

/-- The whole buffer after the first `k` word groups. -/
def packedDataUpTo (a : BinArchive) (k : Nat) : List Nat :=
  (List.range (4 * wordCount a)).map (packedByte a k)

/-- Archive hygiene: pointer targets are in-range word addresses, stored
strings are nonempty, trim-stable, newline-free and do not collide with the
directive prefixes, and labels are nonempty, trim-stable and newline-free. -/
def Hygienic (a : BinArchive) : Prop :=
  (∀ w ∈ wordAddrs a.size, ∀ t, a.read_pointer w = some t → t % 4 = 0 ∧ t < a.size) ∧
  (∀ w ∈ wordAddrs a.size, a.read_pointer w = none → ∀ s, a.read_string w = some s →
    s.data ≠ [] ∧ trimChars s.data = s.data ∧ ¬ '\n' ∈ s.data ∧
    hasLead "DEST:".data s.data = false ∧ hasLead "SRC:".data s.data = false ∧
    hasLead "LABEL:".data s.data = false ∧ hasLead "0x".data s.data = false) ∧
  (∀ w ∈ wordAddrs a.size, ∀ ls, a.read_labels w = some ls → ∀ l ∈ ls,
    l.data ≠ [] ∧ trimChars l.data = l.data ∧ ¬ '\n' ∈ l.data)

/-- The original claim's side condition: no address carries both labels and
a pointer source. -/
def NoLabelSourceOverlap (a : BinArchive) : Prop :=
  ∀ w ∈ wordAddrs a.size,
    ¬((a.read_labels w).isSome = true ∧ (a.read_pointer w).isSome = true)

/-- A line that survives the split-trim round trip: nonempty, free of
newlines, and unchanged by trimming. -/
def goodLine (l : List Char) : Prop := l ≠ [] ∧ ¬ '\n' ∈ l ∧ trimChars l = l

/-- The pointer target the resolution pass writes for a source address. -/
def resolvedTarget (a : BinArchive) (w : Nat) : Nat := (a.read_pointer w).getD 0

/-- The archive a successful `pack` of `unpack a` produces: the replayed
buffer, the resolved pointers, and the replayed string and label tables. -/
def packedArchive (a : BinArchive) : BinArchive :=
  { data := packedDataUpTo a (wordCount a)
    pointers := (srcListUpTo a (wordCount a)).map (fun p => (p.1, resolvedTarget a p.1))
    strings := stringsUpTo a (wordCount a)
    labels := labelsUpTo a (wordCount a) }

/-- The string the packed archive carries at word `j`: the original string,
except at pointer sources, whose `SRC:` line shadows the string. -/
def stringAt (a : BinArchive) (j : Nat) : Option String :=
  if alGet (discover a).1 (4 * j) = none then a.read_string (4 * j) else none

/-- The labels the packed archive carries at word `j`: the original label
list when it is present and nonempty. -/
def labelsAt (a : BinArchive) (j : Nat) : Option (List String) :=
  match a.read_labels (4 * j) with
  | some (l :: ls) => some (l :: ls)
  | _ => none

/-- Executable check of `Hygienic`. -/
def hygienicB (a : BinArchive) : Bool :=
  (wordAddrs a.size).all fun w =>
    (match a.read_pointer w with
     | some t => decide (t % 4 = 0) && decide (t < a.size)
     | none =>
       match a.read_string w with
       | some s =>
         decide (s.data ≠ []) && decide (trimChars s.data = s.data) &&
         decide (¬ '\n' ∈ s.data) && !hasLead "DEST:".data s.data &&
         !hasLead "SRC:".data s.data && !hasLead "LABEL:".data s.data &&
         !hasLead "0x".data s.data
       | none => true) &&
    (match a.read_labels w with
     | some ls =>
       ls.all fun l =>
         decide (l.data ≠ []) && decide (trimChars l.data = l.data) &&
         decide (¬ '\n' ∈ l.data)
     | none => true)

/-! ## The duplicated copies in src/main.rs (lines 7-105)

`src/main.rs` contains its own private copies of `unpack`, `decode_hex` and
`pack`; they are translated here independently, with the same container and
standard-library models. -/

def main_discover (a : BinArchive) : List (Nat × Nat) × List (Nat × Nat) :=
  (wordAddrs a.size).foldl
    (fun st addr =>
      match a.read_pointer addr with
      | some ptr =>
        let id :=
          match alGet st.2 ptr with
          | some id => id
          | none => st.2.length
        (alInsert st.1 addr id, alInsert st.2 ptr id)
      | none => st)
    ([], [])

def main_unpackStep (a : BinArchive) (ptrs dests : List (Nat × Nat))
    (lines : List (List Char)) (addr : Nat) : List (List Char) :=
  let lines :=
    match alGet dests addr with
    | some id => lines ++ [destLineChars id]
    | none => lines
  let lines :=
    match a.read_labels addr with
    | some labels => lines ++ labels.map labelLineChars
    | none => lines
  let content :=
    match alGet ptrs addr with
    | some id => srcLineChars id
    | none =>
      match a.read_string addr with
      | some text => text.data
      | none => hexLineChars (a.read_bytes addr 4)
  lines ++ [content]

def main_unpack (a : BinArchive) : String :=
  ⟨joinNl
    (let st := main_discover a
     (wordAddrs a.size).foldl (main_unpackStep a st.1 st.2) [])⟩

def main_decodeHexChars (s : List Char) : Except String (List Nat) :=
  if s.length % 2 ≠ 0 then .error "Hex string has odd length"
  else
    match hexPairs s with
    | some bs => .ok bs
    | none => .error "invalid digit found in string"

def main_decode_hex (s : String) : Except String (List Nat) :=
  main_decodeHexChars s.data

def main_packLine (st : PackState) (i : Nat) (line : List Char) :
    Except String PackState :=
  if hasLead "DEST:".data line then
    .ok { st with pointers := alInsert st.pointers (trimChars (line.drop 5)) st.pos }
  else if hasLead "SRC:".data line then
    .ok { st with
          pointer_sources := st.pointer_sources ++ [(st.pos, trimChars (line.drop 4))],
          archive := writeWord st.archive st.pos [0, 0, 0, 0],
          pos := st.pos + 4 }
  else if hasLead "LABEL:".data line then
    .ok { st with archive := writeLabel st.archive st.pos (trimChars (line.drop 6)) }
  else if hasLead "0x".data line then
    match main_decodeHexChars (line.drop 2) with
    | .error _ => .error ("Bad hex string at line " ++ natToStr (i + 1))
    | .ok bytes =>
      if bytes.length = 4 then
        .ok { st with archive := writeWord st.archive st.pos bytes, pos := st.pos + 4 }
      else
        .error ("Hex string has incorrect length at line " ++ natToStr (i + 1))
  else
    .ok { st with archive := writeString st.archive st.pos line, pos := st.pos + 4 }

def main_packLoop (st : PackState) (i : Nat) :
    List (List Char) → Except String PackState
  | [] => .ok st
  | line :: rest =>
    match main_packLine st i line with
    | .error e => .error e
    | .ok st2 => main_packLoop st2 (i + 1) rest

def main_resolve (a : BinArchive) (pointers : List (List Char × Nat)) :
    List (Nat × List Char) → Except String BinArchive
  | [] => .ok a
  | (addr, pointer_id) :: rest =>
    match alGet pointers pointer_id with
    | some dest => main_resolve (writePointer a addr dest) pointers rest
    | none => .error ("Unresolved pointer " ++ (⟨pointer_id⟩ : String))

def main_pack (text : String) : Except String BinArchive :=
  let lines := (splitNl text.data).map trimChars
  let size :=
    (lines.filter
      (fun l => !hasLead "LABEL:".data l && !hasLead "DEST:".data l && !l.isEmpty)).length
  let archive0 : BinArchive :=
    { data := List.replicate (size * 4) 0, pointers := [], strings := [], labels := [] }
  match main_packLoop { pointers := [], pointer_sources := [], archive := archive0, pos := 0 } 0 lines with
  | .error e => .error e
  | .ok st => main_resolve st.archive st.pointers st.pointer_sources

/-! ## Concrete archives used as witnesses and counterexamples -/

/-- Four raw bytes `DE AD BE EF`. -/
def hexWordArchive : BinArchive :=
  { data := [0xDE, 0xAD, 0xBE, 0xEF], pointers := [], strings := [], labels := [] }

/-- A string with a leading space, which `pack` trims away. -/
def paddedStringArchive : BinArchive :=
  { data := [0, 0, 0, 0], pointers := [], strings := [(0, " x")], labels := [] }

/-- Sources at 0 and 4 point backwards/forwards (target of the second
source has the smaller address), plus a string and two labels. -/
def mixedArchive : BinArchive :=
  { data := [0, 0, 0, 0, 0, 0, 0, 0, 1, 2, 3, 4, 0, 0, 0, 0]
    pointers := [(0, 8), (4, 0)]
    strings := [(12, "hello")]
    labels := [(8, ["foo", "bar"])] }

/-- Two distinct sources pointing at the same target. -/
def sharedTargetArchive : BinArchive :=
  { data := List.replicate 12 0, pointers := [(0, 8), (4, 8)], strings := [], labels := [] }

/-! ## Association list lemmas -/

theorem alGet_append {α β : Type} [DecidableEq α] (l1 l2 : List (α × β)) (k : α) :
    alGet (l1 ++ l2) k =
      match alGet l1 k with
      | some v => some v
      | none => alGet l2 k := by
  induction l1 with
  | nil => simp [alGet]
  | cons p rest ih =>
    obtain ⟨k0, v0⟩ := p
    by_cases h : k0 = k <;> simp [alGet, h, ih]

theorem alGet_some_mem {α β : Type} [DecidableEq α] {m : List (α × β)} {k : α} {v : β}
    (h : alGet m k = some v) : (k, v) ∈ m := by
  induction m with
  | nil => simp [alGet] at h
  | cons p rest ih =>
    obtain ⟨k0, v0⟩ := p
    by_cases hk : k0 = k
    · subst hk
      simp [alGet] at h
      simp [h]
    · simp [alGet, hk] at h
      exact List.mem_cons_of_mem _ (ih h)

theorem alGet_eq_none_of_forall {α β : Type} [DecidableEq α] {m : List (α × β)} {k : α}
    (h : ∀ v, (k, v) ∉ m) : alGet m k = none := by
  induction m with
  | nil => rfl
  | cons p rest ih =>
    obtain ⟨k0, v0⟩ := p
    by_cases hk : k0 = k
    · subst hk
      exact absurd (List.mem_cons_self _ _) (h v0)
    · simp [alGet, hk]
      exact ih (fun v hv => h v (List.mem_cons_of_mem _ hv))

theorem alGet_alInsert_self {α β : Type} [DecidableEq α] (m : List (α × β)) (k : α) (v : β) :
    alGet (alInsert m k v) k = some v := by
  induction m with
  | nil => simp [alInsert, alGet]
  | cons p rest ih =>
    obtain ⟨k0, v0⟩ := p
    by_cases h : k0 = k <;> simp [alInsert, alGet, h, ih]

theorem alGet_alInsert_ne {α β : Type} [DecidableEq α] (m : List (α × β)) (k k' : α) (v : β)
    (h : k' ≠ k) : alGet (alInsert m k v) k' = alGet m k' := by
  have hne : ¬ k = k' := fun he => h he.symm
  induction m with
  | nil => simp [alInsert, alGet, hne]
  | cons p rest ih =>
    obtain ⟨k0, v0⟩ := p
    by_cases h0 : k0 = k
    · subst h0
      simp [alInsert, alGet, hne]
    · by_cases h1 : k0 = k'
      · subst h1
        simp [alInsert, alGet, h0]
      · simp [alInsert, alGet, h0, h1, ih]

theorem alInsert_of_none {α β : Type} [DecidableEq α] {m : List (α × β)} {k : α} (v : β)
    (h : alGet m k = none) : alInsert m k v = m ++ [(k, v)] := by
  induction m with
  | nil => rfl
  | cons p rest ih =>
    obtain ⟨k0, v0⟩ := p
    by_cases hk : k0 = k
    · subst hk; simp [alGet] at h
    · simp [alGet, hk] at h
      simp [alInsert, hk, ih h]

theorem alInsert_of_some {α β : Type} [DecidableEq α] {m : List (α × β)} {k : α} {v : β}
    (h : alGet m k = some v) : alInsert m k v = m := by
  induction m with
  | nil => simp [alGet] at h
  | cons p rest ih =>
    obtain ⟨k0, v0⟩ := p
    by_cases hk : k0 = k
    · subst hk
      simp [alGet] at h
      simp [alInsert, h]
    · simp [alGet, hk] at h
      simp [alInsert, hk, ih h]

theorem alInsert_append_last {α β : Type} [DecidableEq α] {m : List (α × β)} {k : α} (v v' : β)
    (h : alGet m k = none) : alInsert (m ++ [(k, v)]) k v' = m ++ [(k, v')] := by
  induction m with
  | nil => simp [alInsert]
  | cons p rest ih =>
    obtain ⟨k0, v0⟩ := p
    by_cases hk : k0 = k
    · subst hk; simp [alGet] at h
    · simp [alGet, hk] at h
      simp [alInsert, hk, ih h]

/-! ## hasLead lemmas -/

theorem hasLead_append (p t : List Char) : hasLead p (p ++ t) = true := by
  induction p with
  | nil => rfl
  | cons c cs ih => simp [hasLead, ih]

theorem eq_append_of_hasLead {p l : List Char} (h : hasLead p l = true) :
    l = p ++ l.drop p.length := by
  induction p generalizing l with
  | nil => simp
  | cons c cs ih =>
    cases l with
    | nil => simp [hasLead] at h
    | cons c' l' =>
      simp [hasLead] at h
      obtain ⟨h1, h2⟩ := h
      subst h1
      simpa using ih h2

theorem hasLead_cons_ne {c c' : Char} (p l : List Char) (h : c ≠ c') :
    hasLead (c :: p) (c' :: l) = false := by
  simp [hasLead, h]

theorem hasLead_cons_nil (c : Char) (p : List Char) : hasLead (c :: p) [] = false := rfl

/-! ## String literal character lists -/

theorem destPrefixData : "DEST:".data = ['D', 'E', 'S', 'T', ':'] := rfl
theorem srcPrefixData : "SRC:".data = ['S', 'R', 'C', ':'] := rfl
theorem labelPrefixData : "LABEL:".data = ['L', 'A', 'B', 'E', 'L', ':'] := rfl
theorem hexPrefixData : "0x".data = ['0', 'x'] := rfl
theorem destLineChars_eq (id : Nat) :
    destLineChars id = 'D' :: 'E' :: 'S' :: 'T' :: ':' :: ' ' :: natToChars id := rfl
theorem srcLineChars_eq (id : Nat) :
    srcLineChars id = 'S' :: 'R' :: 'C' :: ':' :: ' ' :: natToChars id := rfl
theorem labelLineChars_eq (label : String) :
    labelLineChars label = 'L' :: 'A' :: 'B' :: 'E' :: 'L' :: ':' :: ' ' :: label.data := rfl

/-! ## Decimal digit facts -/

theorem charOfNat_toNat : ∀ y, y < 58 → (Char.ofNat y).toNat = y := by decide

theorem digitRange_not_ws : ∀ m, m < 10 → isWs (Char.ofNat (48 + m)) = false := by decide

theorem digitRange_not_nl : ∀ m, m < 10 → Char.ofNat (48 + m) ≠ '\n' := by decide

theorem digitChar_toNat (n : Nat) : (digitChar n).toNat = 48 + n % 10 := by
  have h : n % 10 < 10 := Nat.mod_lt _ (by omega)
  exact charOfNat_toNat _ (by omega)

theorem natToRevDigits_val : ∀ fuel n, n ≤ fuel → digitsVal (natToRevDigits fuel n) = n := by
  intro fuel
  induction fuel with
  | zero =>
    intro n h
    have : n = 0 := by omega
    subst this
    rfl
  | succ f ih =>
    intro n h
    cases n with
    | zero => rfl
    | succ m =>
      have hdiv : (m + 1) / 10 ≤ f := by
        have := Nat.div_lt_self (show 0 < m + 1 by omega) (show 1 < 10 by omega)
        omega
      show digitsVal (digitChar ((m + 1) % 10) :: natToRevDigits f ((m + 1) / 10)) = m + 1
      simp [digitsVal, digitChar_toNat, ih _ hdiv]
      omega

theorem mem_natToRevDigits : ∀ fuel n c, c ∈ natToRevDigits fuel n → ∃ m, m < 10 ∧ c = Char.ofNat (48 + m) := by
  intro fuel
  induction fuel with
  | zero =>
    intro n c h
    cases n <;> simp [natToRevDigits] at h
  | succ f ih =>
    intro n c h
    cases n with
    | zero => simp [natToRevDigits] at h
    | succ m =>
      simp only [natToRevDigits, List.mem_cons] at h
      rcases h with h | h
      · exact ⟨(m + 1) % 10 % 10, Nat.mod_lt _ (by omega), h⟩
      · exact ih _ _ h

theorem mem_natToChars {n : Nat} {c : Char} (h : c ∈ natToChars n) :
    ∃ m, m < 10 ∧ c = Char.ofNat (48 + m) := by
  unfold natToChars at h
  by_cases h0 : n = 0
  · simp [h0] at h
    exact ⟨0, by omega, h⟩
  · simp [h0] at h
    exact mem_natToRevDigits _ _ _ h

theorem natToChars_not_ws {n : Nat} {c : Char} (h : c ∈ natToChars n) : isWs c = false := by
  obtain ⟨m, hm, rfl⟩ := mem_natToChars h
  exact digitRange_not_ws m hm

theorem natToChars_not_nl {n : Nat} {c : Char} (h : c ∈ natToChars n) : c ≠ '\n' := by
  obtain ⟨m, hm, rfl⟩ := mem_natToChars h
  exact digitRange_not_nl m hm

theorem natToChars_ne_nil (n : Nat) : natToChars n ≠ [] := by
  unfold natToChars
  by_cases h0 : n = 0
  · simp [h0]
  · simp [h0]
    cases n with
    | zero => exact absurd rfl h0
    | succ m => simp [natToRevDigits]

theorem natToChars_inj {m n : Nat} (h : natToChars m = natToChars n) : m = n := by
  unfold natToChars at h
  by_cases hm : m = 0 <;> by_cases hn : n = 0
  · omega
  · simp [hm, hn] at h
    have hrev : natToRevDigits n n = ['0'] := by
      have := congrArg List.reverse h
      simpa using this.symm
    have := natToRevDigits_val n n le_rfl
    rw [hrev] at this
    simp [digitsVal] at this
    omega
  · simp [hm, hn] at h
    have hrev : natToRevDigits m m = ['0'] := by
      have := congrArg List.reverse h
      simpa using this
    have := natToRevDigits_val m m le_rfl
    rw [hrev] at this
    simp [digitsVal] at this
    omega
  · simp [hm, hn] at h
    have hrev : natToRevDigits m m = natToRevDigits n n := by
      have := congrArg List.reverse h
      simpa using this
    have h1 := natToRevDigits_val m m le_rfl
    have h2 := natToRevDigits_val n n le_rfl
    rw [hrev] at h1
    omega

/-! ## Hex digit facts -/

theorem hexDigit_not_ws : ∀ m, m < 16 → isWs (hexDigitChar m) = false := by decide

theorem hexDigit_not_nl : ∀ m, m < 16 → hexDigitChar m ≠ '\n' := by decide

theorem hexVal_hexDigitChar : ∀ m, m < 16 → hexVal (hexDigitChar m) = some m := by decide

theorem parseHexPair_hexDigits :
    ∀ h l, h < 16 → l < 16 →
      parseHexPair (hexDigitChar h) (hexDigitChar l) = some (16 * h + l) := by
  intro h l hh hl
  unfold parseHexPair
  rw [hexVal_hexDigitChar h hh, hexVal_hexDigitChar l hl]

theorem byteToHexChars_mod (b : Nat) : byteToHexChars (b % 256) = byteToHexChars b := by
  have h1 : b % 256 / 16 % 16 = b / 16 % 16 := by omega
  have h2 : b % 256 % 16 = b % 16 := by omega
  simp [byteToHexChars, h1, h2]

theorem decodeHex_hexLine (b0 b1 b2 b3 : Nat) :
    decodeHexChars ((hexLineChars [b0, b1, b2, b3]).drop 2) =
      .ok [b0 % 256, b1 % 256, b2 % 256, b3 % 256] := by
  have hp : ∀ x : Nat, parseHexPair (hexDigitChar (x / 16 % 16)) (hexDigitChar (x % 16)) = some (x % 256) := by
    intro x
    rw [parseHexPair_hexDigits _ _ (Nat.mod_lt _ (by omega)) (Nat.mod_lt _ (by omega))]
    congr 1
    omega
  simp [hexLineChars, byteToHexChars, hexPrefixData, decodeHexChars, hexPairs, hp]

/-! ## Whitespace and trimming lemmas -/

theorem dropWhile_of_head_not_ws {cs : List Char}
    (h : ∀ c, cs.head? = some c → isWs c = false) : cs.dropWhile isWs = cs := by
  cases cs with
  | nil => rfl
  | cons c rest => simp [List.dropWhile_cons, h c rfl]

theorem trimChars_eq_self {cs : List Char}
    (h1 : ∀ c, cs.head? = some c → isWs c = false)
    (h2 : ∀ c, cs.getLast? = some c → isWs c = false) : trimChars cs = cs := by
  unfold trimChars
  rw [dropWhile_of_head_not_ws h1, dropWhile_of_head_not_ws, List.reverse_reverse]
  intro c hc
  rw [List.head?_reverse] at hc
  exact h2 c hc

theorem trimChars_of_all_not_ws {cs : List Char}
    (h : ∀ c ∈ cs, isWs c = false) : trimChars cs = cs := by
  refine trimChars_eq_self (fun c hc => h c ?_) (fun c hc => h c ?_)
  · exact List.mem_of_mem_head? hc
  · exact List.mem_of_mem_getLast? hc

theorem dropWhile_length_le (p : Char → Bool) (l : List Char) :
    (l.dropWhile p).length ≤ l.length := by
  induction l with
  | nil => simp
  | cons c rest ih =>
    rw [List.dropWhile_cons]
    by_cases h : p c
    · simp [h]
      omega
    · simp [h]

theorem head_not_ws_of_trim_eq {cs : List Char} (h : trimChars cs = cs) :
    ∀ c, cs.head? = some c → isWs c = false := by
  intro c hc
  by_contra hws
  have hws' : isWs c = true := by
    cases hh : isWs c
    · exact absurd hh hws
    · rfl
  cases cs with
  | nil => simp at hc
  | cons c0 rest =>
    have hc0 : c0 = c := by simpa using hc
    have hlen := congrArg List.length h
    unfold trimChars at hlen
    rw [List.dropWhile_cons, hc0, hws'] at hlen
    simp at hlen
    have l1 := dropWhile_length_le isWs (rest.dropWhile isWs).reverse
    have l2 := dropWhile_length_le isWs rest
    simp at l1
    omega

theorem last_not_ws_of_trim_eq {cs : List Char} (h : trimChars cs = cs) :
    ∀ c, cs.getLast? = some c → isWs c = false := by
  intro c hc
  by_contra hws
  have hws' : isWs c = true := by
    cases hh : isWs c
    · exact absurd hh hws
    · rfl
  have hlen := congrArg List.length h
  unfold trimChars at hlen
  have hsuf := List.dropWhile_suffix (l := cs) (p := isWs)
  have hd : cs.dropWhile isWs = cs := by
    apply hsuf.eq_of_length
    have l1 := dropWhile_length_le isWs (cs.dropWhile isWs).reverse
    have l2 := dropWhile_length_le isWs cs
    simp at l1 hlen ⊢
    omega
  rw [hd] at hlen
  cases hre : cs.reverse with
  | nil =>
    have : cs = [] := by simpa using congrArg List.reverse hre
    subst this
    simp at hc
  | cons c0 tail =>
    have hc0 : c0 = c := by
      have : cs.reverse.head? = some c := by
        rw [List.head?_reverse]
        exact hc
      rw [hre] at this
      simpa using this
    have hlc := congrArg List.length hre
    rw [hre, List.dropWhile_cons, hc0, hws'] at hlen
    have l3 := dropWhile_length_le isWs tail
    simp at hlen hlc
    omega

theorem trimChars_cons_space (cs : List Char) : trimChars (' ' :: cs) = trimChars cs := by
  unfold trimChars
  rw [List.dropWhile_cons]
  norm_num [isWs]

/-! ## splitNl / joinNl lemmas -/

theorem splitNl_cons_nl (cs : List Char) : splitNl ('\n' :: cs) = [] :: splitNl cs := by
  conv =>
    lhs
    unfold splitNl
  rw [if_pos rfl]

theorem splitNl_cons_ne (c : Char) (cs : List Char) (h : ¬ c = '\n') :
    splitNl (c :: cs) =
      match splitNl cs with
      | [] => [[c]]
      | l :: ls => (c :: l) :: ls := by
  conv =>
    lhs
    unfold splitNl
  rw [if_neg h]

theorem splitNl_ne_nil (cs : List Char) : splitNl cs ≠ [] := by
  induction cs with
  | nil => simp [splitNl]
  | cons c rest ih =>
    by_cases h : c = '\n'
    · subst h
      rw [splitNl_cons_nl]
      simp
    · rw [splitNl_cons_ne _ _ h]
      cases hs : splitNl rest with
      | nil => simp
      | cons l ls => simp

theorem splitNl_of_no_nl (l : List Char) (h : ¬ '\n' ∈ l) : splitNl l = [l] := by
  induction l with
  | nil => rfl
  | cons c rest ih =>
    simp at h
    obtain ⟨h1, h2⟩ := h
    have hc : ¬ c = '\n' := fun he => h1 he.symm
    rw [splitNl_cons_ne _ _ hc, ih h2]

theorem splitNl_append_nl (l rest : List Char) (h : ¬ '\n' ∈ l) :
    splitNl (l ++ '\n' :: rest) = l :: splitNl rest := by
  induction l with
  | nil =>
    simp only [List.nil_append]
    rw [splitNl_cons_nl]
  | cons c l' ih =>
    simp at h
    obtain ⟨h1, h2⟩ := h
    have hc : ¬ c = '\n' := fun he => h1 he.symm
    simp only [List.cons_append]
    rw [splitNl_cons_ne _ _ hc, ih h2]

theorem splitNl_joinNl (L : List (List Char)) (hne : L ≠ [])
    (h : ∀ l ∈ L, ¬ '\n' ∈ l) : splitNl (joinNl L) = L := by
  induction L with
  | nil => exact absurd rfl hne
  | cons l L' ih =>
    cases L' with
    | nil =>
      show splitNl (joinNl [l]) = [l]
      exact splitNl_of_no_nl l (h l (by simp))
    | cons l2 L'' =>
      show splitNl (l ++ '\n' :: joinNl (l2 :: L'')) = l :: l2 :: L''
      rw [splitNl_append_nl _ _ (h l (by simp))]
      rw [ih (by simp) (fun x hx => h x (List.mem_cons_of_mem _ hx))]

/-! ## Fold and flatMap lemmas -/

theorem foldl_append_flatMap {α β : Type} (f : α → List β) :
    ∀ (l : List α) (init : List β),
      l.foldl (fun acc x => acc ++ f x) init = init ++ l.flatMap f := by
  intro l
  induction l with
  | nil => simp
  | cons x rest ih =>
    intro init
    simp [ih, List.append_assoc]

theorem foldl_congr_mem {α β : Type} (l : List α) (f g : β → α → β) (init : β)
    (h : ∀ st x, x ∈ l → f st x = g st x) : l.foldl f init = l.foldl g init := by
  induction l generalizing init with
  | nil => rfl
  | cons x rest ih =>
    show List.foldl f (f init x) rest = List.foldl g (g init x) rest
    rw [h init x (by simp)]
    exact ih _ (fun st y hy => h st y (List.mem_cons_of_mem _ hy))

theorem unpackStep_eq (a : BinArchive) (ptrs dests : List (Nat × Nat))
    (lines : List (List Char)) (addr : Nat) :
    unpackStep a ptrs dests lines addr = lines ++ addrLines a ptrs dests addr := by
  cases h1 : alGet dests addr <;> cases h2 : a.read_labels addr <;>
    cases h3 : alGet ptrs addr <;> cases h4 : a.read_string addr <;>
    simp [unpackStep, addrLines, h1, h2, h3, h4, List.append_assoc]

theorem unpackLines_eq_flatMap (a : BinArchive) :
    unpackLines a =
      (wordAddrs a.size).flatMap (addrLines a (discover a).1 (discover a).2) := by
  unfold unpackLines
  rw [foldl_congr_mem _ _
    (fun acc w => acc ++ addrLines a (discover a).1 (discover a).2 w) _
    (fun st x _ => unpackStep_eq a _ _ st x)]
  exact foldl_append_flatMap _ _ []

/-! ## idxOf, firstOccur and enumAList lemmas -/

theorem idxOf_append_of_mem {x : Nat} {l : List Nat} (l' : List Nat) (h : x ∈ l) :
    idxOf x (l ++ l') = idxOf x l := by
  induction l with
  | nil => simp at h
  | cons y rest ih =>
    by_cases hy : y = x
    · simp [idxOf, hy]
    · rcases List.mem_cons.mp h with h1 | h2
      · exact absurd h1.symm hy
      · simp [idxOf, hy, ih h2]

theorem idxOf_prefix_eq {l l' : List Nat} (h : l <+: l') {x : Nat} (hx : x ∈ l) :
    idxOf x l' = idxOf x l := by
  obtain ⟨t, rfl⟩ := h
  exact idxOf_append_of_mem t hx

theorem get?_idxOf {x : Nat} {l : List Nat} (h : x ∈ l) :
    l.get? (idxOf x l) = some x := by
  induction l with
  | nil => simp at h
  | cons y rest ih =>
    by_cases hy : y = x
    · simp [idxOf, hy]
    · rcases List.mem_cons.mp h with h1 | h2
      · exact absurd h1.symm hy
      · simp only [idxOf, if_neg hy, List.get?_cons_succ]
        exact ih h2

theorem idxOf_inj {x y : Nat} {l : List Nat} (hx : x ∈ l) (hy : y ∈ l)
    (h : idxOf x l = idxOf y l) : x = y := by
  have h1 := get?_idxOf hx
  rw [h] at h1
  have h2 := get?_idxOf hy
  rw [h2] at h1
  exact (Option.some_inj.mp h1).symm

theorem idxOf_append_self {x : Nat} {l : List Nat} (l'' : List Nat) (h : ¬ x ∈ l) :
    idxOf x (l ++ x :: l'') = l.length := by
  induction l with
  | nil => simp [idxOf]
  | cons y rest ih =>
    simp at h
    obtain ⟨h1, h2⟩ := h
    have hy : ¬ y = x := fun he => h1 he.symm
    simp [idxOf, hy, ih h2]

theorem firstOccurFrom_nil (acc : List Nat) : firstOccurFrom acc [] = acc := rfl

theorem firstOccurFrom_cons (acc : List Nat) (x : Nat) (l : List Nat) :
    firstOccurFrom acc (x :: l) = firstOccurFrom (seenAdd acc x) l := rfl

theorem firstOccurFrom_append (acc l1 l2 : List Nat) :
    firstOccurFrom acc (l1 ++ l2) = firstOccurFrom (firstOccurFrom acc l1) l2 := by
  unfold firstOccurFrom
  rw [List.foldl_append]

theorem prefix_firstOccurFrom (acc l : List Nat) : acc <+: firstOccurFrom acc l := by
  induction l generalizing acc with
  | nil => exact List.prefix_refl acc
  | cons x rest ih =>
    rw [firstOccurFrom_cons]
    refine List.IsPrefix.trans ?_ (ih (seenAdd acc x))
    unfold seenAdd
    by_cases h : x ∈ acc
    · simp [h]
    · simp [h]

theorem mem_firstOccurFrom {acc l : List Nat} {x : Nat} :
    x ∈ firstOccurFrom acc l ↔ x ∈ acc ∨ x ∈ l := by
  induction l generalizing acc with
  | nil => simp [firstOccurFrom_nil]
  | cons y rest ih =>
    rw [firstOccurFrom_cons, ih]
    unfold seenAdd
    by_cases h : y ∈ acc
    · simp [h]
      constructor
      · rintro (h1 | h2)
        · exact Or.inl h1
        · exact Or.inr (Or.inr h2)
      · rintro (h1 | h2 | h3)
        · exact Or.inl h1
        · rw [h2]
          exact Or.inl h
        · exact Or.inr h3
    · simp [h]
      constructor
      · rintro ((h1 | h1) | h2)
        · exact Or.inl h1
        · exact Or.inr (Or.inl h1)
        · exact Or.inr (Or.inr h2)
      · rintro (h1 | h2 | h3)
        · exact Or.inl (Or.inl h1)
        · exact Or.inl (Or.inr h2)
        · exact Or.inr h3

theorem nodup_firstOccurFrom (l : List Nat) :
    ∀ acc : List Nat, acc.Nodup → (firstOccurFrom acc l).Nodup := by
  induction l with
  | nil => intro acc h; exact h
  | cons y rest ih =>
    intro acc h
    rw [firstOccurFrom_cons]
    refine ih _ ?_
    unfold seenAdd
    by_cases hy : y ∈ acc
    · simp [hy, h]
    · rw [if_neg hy]
      refine List.Nodup.append h (List.nodup_singleton y) ?_
      intro x hx hy'
      simp at hy'
      subst hy'
      exact hy hx

theorem mem_firstOccur {l : List Nat} {x : Nat} : x ∈ firstOccur l ↔ x ∈ l := by
  unfold firstOccur
  rw [mem_firstOccurFrom]
  simp

theorem firstOccur_nodup (l : List Nat) : (firstOccur l).Nodup :=
  nodup_firstOccurFrom l [] List.nodup_nil

theorem enumAListFrom_append (i : Nat) (l1 l2 : List Nat) :
    enumAListFrom i (l1 ++ l2) =
      enumAListFrom i l1 ++ enumAListFrom (i + l1.length) l2 := by
  induction l1 generalizing i with
  | nil => simp [enumAListFrom]
  | cons x rest ih =>
    simp [enumAListFrom, ih (i + 1)]
    have : i + 1 + rest.length = i + (rest.length + 1) := by omega
    rw [this]

theorem length_enumAListFrom (i : Nat) (l : List Nat) :
    (enumAListFrom i l).length = l.length := by
  induction l generalizing i with
  | nil => rfl
  | cons x rest ih => simp [enumAListFrom, ih]

theorem alGet_enumAListFrom_mem {l : List Nat} {x : Nat} (i : Nat) (h : x ∈ l) :
    alGet (enumAListFrom i l) x = some (i + idxOf x l) := by
  induction l generalizing i with
  | nil => simp at h
  | cons y rest ih =>
    by_cases hy : y = x
    · simp [enumAListFrom, alGet, idxOf, hy]
    · rcases List.mem_cons.mp h with h1 | h2
      · exact absurd h1.symm hy
      · simp [enumAListFrom, alGet, idxOf, hy, ih (i + 1) h2]
        omega

theorem alGet_enumAListFrom_not_mem {l : List Nat} {x : Nat} (i : Nat) (h : ¬ x ∈ l) :
    alGet (enumAListFrom i l) x = none := by
  induction l generalizing i with
  | nil => rfl
  | cons y rest ih =>
    simp at h
    obtain ⟨h1, h2⟩ := h
    have hy : ¬ y = x := fun he => h1 he.symm
    simp [enumAListFrom, alGet, hy, ih (i + 1) h2]

theorem alGet_enumAList_mem {l : List Nat} {x : Nat} (h : x ∈ l) :
    alGet (enumAList l) x = some (idxOf x l) := by
  unfold enumAList
  rw [alGet_enumAListFrom_mem 0 h]
  simp

theorem alGet_enumAList_not_mem {l : List Nat} {x : Nat} (h : ¬ x ∈ l) :
    alGet (enumAList l) x = none :=
  alGet_enumAListFrom_not_mem 0 h

theorem enumAList_append_singleton (l : List Nat) (x : Nat) :
    enumAList (l ++ [x]) = enumAList l ++ [(x, l.length)] := by
  unfold enumAList
  rw [enumAListFrom_append]
  simp [enumAListFrom]

theorem length_enumAList (l : List Nat) : (enumAList l).length = l.length :=
  length_enumAListFrom 0 l

/-! ## The discovery pass characterization -/

theorem targetsOf_append (a : BinArchive) (l1 l2 : List Nat) :
    targetsOf a (l1 ++ l2) = targetsOf a l1 ++ targetsOf a l2 := by
  unfold targetsOf
  exact List.filterMap_append l1 l2 _

theorem srcEntriesOf_append (a : BinArchive) (F : List Nat) (l1 l2 : List Nat) :
    srcEntriesOf a F (l1 ++ l2) = srcEntriesOf a F l1 ++ srcEntriesOf a F l2 := by
  unfold srcEntriesOf
  exact List.filterMap_append l1 l2 _

theorem alGet_srcEntriesOf_not_mem (a : BinArchive) (F : List Nat) {l : List Nat}
    {w : Nat} (h : ¬ w ∈ l) : alGet (srcEntriesOf a F l) w = none := by
  apply alGet_eq_none_of_forall
  intro v hv
  unfold srcEntriesOf at hv
  rw [List.mem_filterMap] at hv
  obtain ⟨u, hu, he⟩ := hv
  rw [Option.map_eq_some'] at he
  obtain ⟨t, _, he2⟩ := he
  have : u = w := congrArg Prod.fst he2
  rw [this] at hu
  exact h hu

theorem discoverStep_none (a : BinArchive)
    (st : List (Nat × Nat) × List (Nat × Nat)) (w : Nat)
    (hp : a.read_pointer w = none) : discoverStep a st w = st := by
  unfold discoverStep
  rw [hp]

theorem discoverStep_some (a : BinArchive)
    (st : List (Nat × Nat) × List (Nat × Nat)) (w t : Nat)
    (hp : a.read_pointer w = some t) :
    discoverStep a st w =
      (alInsert st.1 w
        (match alGet st.2 t with
         | some id => id
         | none => st.2.length),
       alInsert st.2 t
        (match alGet st.2 t with
         | some id => id
         | none => st.2.length)) := by
  unfold discoverStep
  rw [hp]

theorem discover_go (a : BinArchive) (W : List Nat) :
    ∀ (rest done : List Nat), done ++ rest = W → W.Nodup →
      rest.foldl (discoverStep a)
        (srcEntriesOf a (firstOccur (targetsOf a W)) done,
          enumAList (firstOccur (targetsOf a done)))
      = (srcEntriesOf a (firstOccur (targetsOf a W)) W,
          enumAList (firstOccur (targetsOf a W))) := by
  intro rest
  induction rest with
  | nil =>
    intro done he _
    rw [List.append_nil] at he
    subst he
    rfl
  | cons w rest' ih =>
    intro done he hnd
    set F := firstOccur (targetsOf a W) with hF
    have hwdone : ¬ w ∈ done := by
      intro hw
      have : ¬ (done ++ w :: rest').Nodup := by
        intro hcon
        rw [List.nodup_middle] at hcon
        have := (List.nodup_cons.mp hcon).1
        simp at this
        exact this.1 hw
      rw [he] at this
      exact this hnd
    have hstep :
        discoverStep a
          (srcEntriesOf a F done, enumAList (firstOccur (targetsOf a done))) w
        = (srcEntriesOf a F (done ++ [w]),
            enumAList (firstOccur (targetsOf a (done ++ [w])))) := by
      cases hp : a.read_pointer w with
      | none =>
        have ht : targetsOf a (done ++ [w]) = targetsOf a done := by
          rw [targetsOf_append]
          simp [targetsOf, hp]
        have hs : srcEntriesOf a F (done ++ [w]) = srcEntriesOf a F done := by
          rw [srcEntriesOf_append]
          simp [srcEntriesOf, hp]
        rw [discoverStep_none a _ w hp, ht, hs]
      | some t =>
        have ht : targetsOf a (done ++ [w]) = targetsOf a done ++ [t] := by
          rw [targetsOf_append]
          simp [targetsOf, hp]
        have hs : srcEntriesOf a F (done ++ [w])
            = srcEntriesOf a F done ++ [(w, idxOf t F)] := by
          rw [srcEntriesOf_append]
          simp [srcEntriesOf, hp]
        have hWsplit : W = done ++ w :: rest' := he.symm
        have hFsplit : F = firstOccurFrom (firstOccur (targetsOf a done)) (targetsOf a (w :: rest')) := by
          rw [hF, hWsplit]
          show firstOccur (targetsOf a (done ++ w :: rest')) = _
          have : done ++ w :: rest' = done ++ (w :: rest') := rfl
          rw [this, targetsOf_append]
          unfold firstOccur
          rw [firstOccurFrom_append]
        have htw : targetsOf a (w :: rest') = t :: targetsOf a rest' := by
          show List.filterMap a.read_pointer (w :: rest') = _
          rw [List.filterMap_cons]
          simp [hp, targetsOf]
        set Fd := firstOccur (targetsOf a done) with hFd
        have hsrcnew : alGet (srcEntriesOf a F done) w = none :=
          alGet_srcEntriesOf_not_mem a F hwdone
        by_cases htmem : t ∈ Fd
        · rw [discoverStep_some a _ w t hp]
          dsimp only
          have hid : alGet (enumAList Fd) t = some (idxOf t Fd) :=
            alGet_enumAList_mem htmem
          have hFd' : firstOccur (targetsOf a (done ++ [w])) = Fd := by
            rw [ht]
            unfold firstOccur
            rw [firstOccurFrom_append]
            show seenAdd Fd t = Fd
            unfold seenAdd
            simp [htmem]
          have hidx : idxOf t Fd = idxOf t F := by
            have hpre : Fd <+: F := by
              rw [hFsplit]
              exact prefix_firstOccurFrom Fd _
            exact (idxOf_prefix_eq hpre htmem).symm
          simp only [hid]
          rw [alInsert_of_some hid, hFd', hs, hidx]
          rw [alInsert_of_none _ hsrcnew]
        · rw [discoverStep_some a _ w t hp]
          dsimp only
          have hid : alGet (enumAList Fd) t = none :=
            alGet_enumAList_not_mem htmem
          have hFd' : firstOccur (targetsOf a (done ++ [w])) = Fd ++ [t] := by
            rw [ht]
            unfold firstOccur
            rw [firstOccurFrom_append]
            show seenAdd Fd t = Fd ++ [t]
            unfold seenAdd
            simp [htmem]
          have hidx : idxOf t F = Fd.length := by
            rw [hFsplit, htw, firstOccurFrom_cons]
            show idxOf t (firstOccurFrom (seenAdd Fd t) (targetsOf a rest')) = Fd.length
            have h1 : seenAdd Fd t = Fd ++ [t] := by
              unfold seenAdd
              simp [htmem]
            have hpre : seenAdd Fd t <+: firstOccurFrom (seenAdd Fd t) (targetsOf a rest') :=
              prefix_firstOccurFrom _ _
            have hmem : t ∈ seenAdd Fd t := by
              rw [h1]
              simp
            rw [idxOf_prefix_eq hpre hmem, h1, idxOf_append_self [] htmem]
          simp only [hid]
          rw [alInsert_of_none _ hid, length_enumAList, hFd', hs]
          rw [alInsert_of_none _ hsrcnew, ← hidx, enumAList_append_singleton]
          rw [hidx]
    show List.foldl (discoverStep a) _ rest' = _
    rw [hstep]
    have he' : (done ++ [w]) ++ rest' = W := by
      rw [List.append_assoc]
      exact he
    exact ih (done ++ [w]) he' hnd

theorem wordAddrs_nodup (s : Nat) : (wordAddrs s).Nodup := by
  unfold wordAddrs
  refine List.Nodup.map ?_ (List.nodup_range _)
  intro x y h
  have h' : x * 4 = y * 4 := h
  omega

theorem discover_spec (a : BinArchive) :
    discover a = (srcAList a, enumAList (destIdList a)) := by
  unfold discover
  have := discover_go a (wordAddrs a.size) (wordAddrs a.size) [] rfl
    (wordAddrs_nodup a.size)
  simp only [List.nil_append] at this
  rw [show srcEntriesOf a (firstOccur (targetsOf a (wordAddrs a.size))) [] = [] from rfl] at this
  rw [show targetsOf a ([] : List Nat) = [] from rfl] at this
  rw [show enumAList (firstOccur []) = [] from rfl] at this
  rw [this]
  rfl

/-! ## Lookup of source entries -/

theorem alGet_srcEntriesOf_mem (a : BinArchive) (F : List Nat) :
    ∀ {l : List Nat}, l.Nodup → ∀ {w : Nat}, w ∈ l →
      alGet (srcEntriesOf a F l) w = (a.read_pointer w).map (fun t => idxOf t F) := by
  intro l
  induction l with
  | nil => intro _ w hw; simp at hw
  | cons u rest ih =>
    intro hnd w hw
    have hnd2 := List.nodup_cons.mp hnd
    by_cases hu : u = w
    · subst hu
      cases hp : a.read_pointer u with
      | none =>
        have : srcEntriesOf a F (u :: rest) = srcEntriesOf a F rest := by
          unfold srcEntriesOf
          rw [List.filterMap_cons]
          simp [hp]
        rw [this, alGet_srcEntriesOf_not_mem a F hnd2.1]
        rfl
      | some t =>
        have : srcEntriesOf a F (u :: rest) = (u, idxOf t F) :: srcEntriesOf a F rest := by
          unfold srcEntriesOf
          rw [List.filterMap_cons]
          simp [hp]
        rw [this]
        simp [alGet]
    · have hwr : w ∈ rest := by
        rcases List.mem_cons.mp hw with h1 | h2
        · exact absurd h1.symm hu
        · exact h2
      cases hp : a.read_pointer u with
      | none =>
        have : srcEntriesOf a F (u :: rest) = srcEntriesOf a F rest := by
          unfold srcEntriesOf
          rw [List.filterMap_cons]
          simp [hp]
        rw [this, ih hnd2.2 hwr]
      | some t =>
        have : srcEntriesOf a F (u :: rest) = (u, idxOf t F) :: srcEntriesOf a F rest := by
          unfold srcEntriesOf
          rw [List.filterMap_cons]
          simp [hp]
        rw [this]
        show alGet ((u, idxOf t F) :: srcEntriesOf a F rest) w = _
        simp only [alGet, if_neg hu]
        exact ih hnd2.2 hwr

theorem mem_scanTargets {a : BinArchive} {w t : Nat} (hw : w ∈ wordAddrs a.size)
    (hp : a.read_pointer w = some t) : t ∈ scanTargets a := by
  unfold scanTargets
  rw [List.mem_filterMap]
  exact ⟨w, hw, hp⟩

theorem mem_destIdList {a : BinArchive} {w t : Nat} (hw : w ∈ wordAddrs a.size)
    (hp : a.read_pointer w = some t) : t ∈ destIdList a := by
  unfold destIdList
  rw [mem_firstOccur]
  exact mem_scanTargets hw hp

theorem srcId_eq (a : BinArchive) {w t : Nat} (hw : w ∈ wordAddrs a.size)
    (hp : a.read_pointer w = some t) :
    alGet (discover a).1 w = some (idxOf t (destIdList a)) := by
  rw [discover_spec]
  show alGet (srcAList a) w = _
  have : srcAList a = srcEntriesOf a (destIdList a) (wordAddrs a.size) := rfl
  rw [this, alGet_srcEntriesOf_mem a _ (wordAddrs_nodup a.size) hw, hp]
  rfl

theorem destId_eq (a : BinArchive) {t : Nat} (ht : t ∈ destIdList a) :
    alGet (discover a).2 t = some (idxOf t (destIdList a)) := by
  rw [discover_spec]
  exact alGet_enumAList_mem ht

/-- C2: during the discovery scan over word addresses in order, a fresh
pointer target is assigned the next sequential ID starting at 0 in order of
first source occurrence: the destination map is exactly the enumeration of
`destIdList` (the targets in first-seen order, so the `i`-th first-seen
target has ID `i`), and every source, including later sources of an already
seen target, is assigned the index of its target's first occurrence. -/
theorem c2_id_assignment_order (a : BinArchive) (w t : Nat)
    (hw : w ∈ wordAddrs a.size) (hp : a.read_pointer w = some t) :
    (discover a).2 = enumAList (destIdList a) ∧
    destIdList a = firstOccur (scanTargets a) ∧
    alGet (discover a).1 w = some (idxOf t (destIdList a)) := by
  refine ⟨?_, rfl, srcId_eq a hw hp⟩
  rw [discover_spec]

/-- Witness for C2 on a concrete archive whose second source points at a
smaller address than the first: IDs follow source scan order, not target
address order. -/
theorem c2_witness :
    4 ∈ wordAddrs mixedArchive.size ∧
    mixedArchive.read_pointer 4 = some 0 ∧
    ((discover mixedArchive).2 = enumAList (destIdList mixedArchive) ∧
      destIdList mixedArchive = firstOccur (scanTargets mixedArchive) ∧
      alGet (discover mixedArchive).1 4 = some (idxOf 0 (destIdList mixedArchive))) ∧
    destIdList mixedArchive = [8, 0] ∧
    alGet (discover mixedArchive).1 4 = some 1 :=
  ⟨by decide, by decide,
    c2_id_assignment_order mixedArchive 4 0 (by decide) (by decide),
    by decide, by decide⟩

/-- C3: two distinct word addresses holding pointers at the same target
share one ID, and exactly one word address emits a `DEST:` marker carrying
that ID. -/
theorem c3_dedup (a : BinArchive) (s1 s2 t : Nat)
    (h1 : s1 ∈ wordAddrs a.size) (h2 : s2 ∈ wordAddrs a.size) (_hne : s1 ≠ s2)
    (hp1 : a.read_pointer s1 = some t) (hp2 : a.read_pointer s2 = some t)
    (ht4 : t % 4 = 0) (hts : t < a.size) :
    ∃ id, alGet (discover a).1 s1 = some id ∧ alGet (discover a).1 s2 = some id ∧
      (wordAddrs a.size).countP (fun w => decide (alGet (discover a).2 w = some id)) = 1 := by
  refine ⟨idxOf t (destIdList a), srcId_eq a h1 hp1, srcId_eq a h2 hp2, ?_⟩
  have htW : t ∈ wordAddrs a.size := by
    unfold wordAddrs
    rw [List.mem_map]
    refine ⟨t / 4, ?_, by omega⟩
    rw [List.mem_range]
    omega
  have htF : t ∈ destIdList a := mem_destIdList h1 hp1
  have hpred : ∀ w ∈ wordAddrs a.size,
      (decide (alGet (discover a).2 w = some (idxOf t (destIdList a)))) = (w == t) := by
    intro w _
    by_cases hwt : w = t
    · subst hwt
      simp [destId_eq a htF]
    · by_cases hwF : w ∈ destIdList a
      · have := destId_eq a hwF
        rw [this]
        simp only [Option.some.injEq, decide_eq_true_eq]
        have hne2 : ¬ idxOf w (destIdList a) = idxOf t (destIdList a) := by
          intro he
          exact hwt (idxOf_inj hwF htF he)
        simp [hne2, hwt]
      · have : alGet (discover a).2 w = none := by
          rw [discover_spec]
          exact alGet_enumAList_not_mem hwF
        simp [this, hwt]
  rw [List.countP_congr (fun x hx => by rw [hpred x hx])]
  have := List.count_eq_one_of_mem (wordAddrs_nodup a.size) htW
  simpa [List.count] using this

/-- Witness for C3: two sources at 0 and 4 pointing at 8 share ID 0, and
one `DEST:` marker is emitted. -/
theorem c3_witness :
    0 ∈ wordAddrs sharedTargetArchive.size ∧
    sharedTargetArchive.read_pointer 0 = some 8 ∧
    sharedTargetArchive.read_pointer 4 = some 8 ∧
    (∃ id, alGet (discover sharedTargetArchive).1 0 = some id ∧
      alGet (discover sharedTargetArchive).1 4 = some id ∧
      (wordAddrs sharedTargetArchive.size).countP
        (fun w => decide (alGet (discover sharedTargetArchive).2 w = some id)) = 1) :=
  ⟨by decide, by decide, by decide,
    c3_dedup sharedTargetArchive 0 4 8 (by decide) (by decide) (by decide)
      (by decide) (by decide) (by decide) (by decide)⟩

/-- C8: the word `DE AD BE EF` unpacks to exactly the line `0xDEADBEEF`,
and packing that line writes exactly those four bytes at address 0. -/
theorem c8_hex_fallback_exactness :
    unpack hexWordArchive = "0xDEADBEEF" ∧
    pack "0xDEADBEEF" =
      .ok { data := [0xDE, 0xAD, 0xBE, 0xEF], pointers := [], strings := [], labels := [] } :=
  ⟨rfl, rfl⟩

/-- C9 (code bug evaluation): empty lines are not inert in the write pass.
Packing the empty text calls `write_string` on the empty line, leaving a
string table entry at address 0 of the zero-length archive, and in
`0x11223344\n\n0x55667788` the empty middle line records an empty string at
address 4 and advances the cursor, so the final word is written at address
8, past the 8-byte allocation computed from the two content-bearing lines,
and is lost.  The size filter of the same function excludes empty lines,
which is the spec's stated intent. -/
theorem c9_empty_line_divergence :
    pack "" = .ok { data := [], pointers := [], strings := [(0, "")], labels := [] } ∧
    pack "0x11223344\n\n0x55667788" =
      .ok { data := [0x11, 0x22, 0x33, 0x44, 0, 0, 0, 0], pointers := [],
            strings := [(4, "")], labels := [] } ∧
    unpack { data := [], pointers := [], strings := [], labels := [] } = "" :=
  ⟨rfl, rfl, rfl⟩

/-- C7 (counterexample): the line `0x+1+2+3+4` starts with `0x` and its
remainder contains the non-hex character `+`, yet `pack` succeeds, because
`u8::from_str_radix` accepts a leading sign in each two-character group. -/
theorem c7_counterexample :
    pack "0x+1+2+3+4" =
      .ok { data := [1, 2, 3, 4], pointers := [], strings := [], labels := [] } ∧
    hexVal '+' = none :=
  ⟨rfl, rfl⟩

theorem main_packLoop_eq :
    ∀ (l : List (List Char)) (st : PackState) (i : Nat),
      main_packLoop st i l = packLoop st i l := by
  intro l
  induction l with
  | nil => intro st i; rfl
  | cons x rest ih =>
    intro st i
    show (match main_packLine st i x with
          | Except.error e => Except.error e
          | Except.ok st2 => main_packLoop st2 (i + 1) rest) =
        (match packLine st i x with
          | Except.error e => Except.error e
          | Except.ok st2 => packLoop st2 (i + 1) rest)
    rw [show main_packLine st i x = packLine st i x from rfl]
    cases packLine st i x with
    | error e => rfl
    | ok st2 => exact ih st2 (i + 1)

theorem main_resolve_eq :
    ∀ (l : List (Nat × List Char)) (a : BinArchive) (ps : List (List Char × Nat)),
      main_resolve a ps l = resolve a ps l := by
  intro l
  induction l with
  | nil => intro a ps; rfl
  | cons p rest ih =>
    intro a ps
    obtain ⟨addr, pid⟩ := p
    show (match alGet ps pid with
          | some dest => main_resolve (writePointer a addr dest) ps rest
          | none => Except.error ("Unresolved pointer " ++ (⟨pid⟩ : String))) =
        (match alGet ps pid with
          | some dest => resolve (writePointer a addr dest) ps rest
          | none => Except.error ("Unresolved pointer " ++ (⟨pid⟩ : String)))
    cases alGet ps pid with
    | none => rfl
    | some dest => exact ih _ _

/-- C10: the private copies of `unpack`, `decode_hex` and `pack` in
`src/main.rs` agree extensionally with the public copies in
`src/unpacker.rs` on every archive and every text. -/
theorem c10_duplicate_copies :
    (∀ a : BinArchive, main_unpack a = unpack a) ∧
    (∀ s : String, main_decode_hex s = decode_hex s) ∧
    (∀ t : String, main_pack t = pack t) := by
  refine ⟨fun _ => rfl, fun _ => rfl, fun t => ?_⟩
  unfold main_pack pack
  simp only [main_packLoop_eq, main_resolve_eq]
  rfl

/-- C4: the text of `unpack` is exactly the per-address line groups, in
address order, joined by single newlines; each group is a `DEST:` marker if
the address is a discovered pointer target, then one `LABEL:` line per
attached label in stored order, then exactly one content line chosen by the
priority source-reference / string text / uppercase 8-digit hex word (see
`addrLines`). -/
theorem c4_emission_order (a : BinArchive) :
    unpack a =
      ⟨joinNl ((wordAddrs a.size).flatMap
        (addrLines a (discover a).1 (discover a).2))⟩ := by
  unfold unpack
  rw [unpackLines_eq_flatMap]

/-! ## packLine branch lemmas -/

theorem head_of_hasLead {c : Char} {p l : List Char} (h : hasLead (c :: p) l = true) :
    ∃ cs, l = c :: cs := by
  cases l with
  | nil => simp [hasLead] at h
  | cons c' cs =>
    simp [hasLead] at h
    exact ⟨cs, by rw [h.1]⟩

theorem not_src_of_dest {l : List Char} (h : hasLead "DEST:".data l = true) :
    hasLead "SRC:".data l = false := by
  rw [destPrefixData] at h
  obtain ⟨cs, rfl⟩ := head_of_hasLead h
  rw [srcPrefixData]
  simp [hasLead]

theorem not_label_of_dest {l : List Char} (h : hasLead "DEST:".data l = true) :
    hasLead "LABEL:".data l = false := by
  rw [destPrefixData] at h
  obtain ⟨cs, rfl⟩ := head_of_hasLead h
  rw [labelPrefixData]
  simp [hasLead]

theorem not_hex_of_dest {l : List Char} (h : hasLead "DEST:".data l = true) :
    hasLead "0x".data l = false := by
  rw [destPrefixData] at h
  obtain ⟨cs, rfl⟩ := head_of_hasLead h
  rw [hexPrefixData]
  simp [hasLead]

theorem not_dest_of_src {l : List Char} (h : hasLead "SRC:".data l = true) :
    hasLead "DEST:".data l = false := by
  rw [srcPrefixData] at h
  obtain ⟨cs, rfl⟩ := head_of_hasLead h
  rw [destPrefixData]
  simp [hasLead]

theorem not_label_of_src {l : List Char} (h : hasLead "SRC:".data l = true) :
    hasLead "LABEL:".data l = false := by
  rw [srcPrefixData] at h
  obtain ⟨cs, rfl⟩ := head_of_hasLead h
  rw [labelPrefixData]
  simp [hasLead]

theorem not_hex_of_src {l : List Char} (h : hasLead "SRC:".data l = true) :
    hasLead "0x".data l = false := by
  rw [srcPrefixData] at h
  obtain ⟨cs, rfl⟩ := head_of_hasLead h
  rw [hexPrefixData]
  simp [hasLead]

theorem not_dest_of_label {l : List Char} (h : hasLead "LABEL:".data l = true) :
    hasLead "DEST:".data l = false := by
  rw [labelPrefixData] at h
  obtain ⟨cs, rfl⟩ := head_of_hasLead h
  rw [destPrefixData]
  simp [hasLead]

theorem not_src_of_label {l : List Char} (h : hasLead "LABEL:".data l = true) :
    hasLead "SRC:".data l = false := by
  rw [labelPrefixData] at h
  obtain ⟨cs, rfl⟩ := head_of_hasLead h
  rw [srcPrefixData]
  simp [hasLead]

theorem not_hex_of_label {l : List Char} (h : hasLead "LABEL:".data l = true) :
    hasLead "0x".data l = false := by
  rw [labelPrefixData] at h
  obtain ⟨cs, rfl⟩ := head_of_hasLead h
  rw [hexPrefixData]
  simp [hasLead]

theorem not_dest_of_hex {l : List Char} (h : hasLead "0x".data l = true) :
    hasLead "DEST:".data l = false := by
  rw [hexPrefixData] at h
  obtain ⟨cs, rfl⟩ := head_of_hasLead h
  rw [destPrefixData]
  simp [hasLead]

theorem not_src_of_hex {l : List Char} (h : hasLead "0x".data l = true) :
    hasLead "SRC:".data l = false := by
  rw [hexPrefixData] at h
  obtain ⟨cs, rfl⟩ := head_of_hasLead h
  rw [srcPrefixData]
  simp [hasLead]

theorem not_label_of_hex {l : List Char} (h : hasLead "0x".data l = true) :
    hasLead "LABEL:".data l = false := by
  rw [hexPrefixData] at h
  obtain ⟨cs, rfl⟩ := head_of_hasLead h
  rw [labelPrefixData]
  simp [hasLead]

theorem packLine_dest {line : List Char} (st : PackState) (i : Nat)
    (h : hasLead "DEST:".data line = true) :
    packLine st i line =
      .ok { st with pointers := alInsert st.pointers (trimChars (line.drop 5)) st.pos } := by
  unfold packLine
  rw [if_pos h]

theorem packLine_src {line : List Char} (st : PackState) (i : Nat)
    (h : hasLead "SRC:".data line = true) :
    packLine st i line =
      .ok { st with
            pointer_sources := st.pointer_sources ++ [(st.pos, trimChars (line.drop 4))],
            archive := writeWord st.archive st.pos [0, 0, 0, 0],
            pos := st.pos + 4 } := by
  unfold packLine
  rw [if_neg, if_pos h]
  rw [not_dest_of_src h]
  simp

theorem packLine_label {line : List Char} (st : PackState) (i : Nat)
    (h : hasLead "LABEL:".data line = true) :
    packLine st i line =
      .ok { st with archive := writeLabel st.archive st.pos (trimChars (line.drop 6)) } := by
  unfold packLine
  rw [if_neg, if_neg, if_pos h]
  · rw [not_src_of_label h]
    simp
  · rw [not_dest_of_label h]
    simp

theorem packLine_hex {line : List Char} (st : PackState) (i : Nat)
    (h : hasLead "0x".data line = true) :
    packLine st i line =
      (match decodeHexChars (line.drop 2) with
       | .error _ => .error ("Bad hex string at line " ++ natToStr (i + 1))
       | .ok bytes =>
         if bytes.length = 4 then
           .ok { st with archive := writeWord st.archive st.pos bytes, pos := st.pos + 4 }
         else
           .error ("Hex string has incorrect length at line " ++ natToStr (i + 1))) := by
  unfold packLine
  rw [if_neg, if_neg, if_neg, if_pos h]
  · rw [not_label_of_hex h]
    simp
  · rw [not_src_of_hex h]
    simp
  · rw [not_dest_of_hex h]
    simp

theorem packLine_string {line : List Char} (st : PackState) (i : Nat)
    (h1 : hasLead "DEST:".data line = false) (h2 : hasLead "SRC:".data line = false)
    (h3 : hasLead "LABEL:".data line = false) (h4 : hasLead "0x".data line = false) :
    packLine st i line =
      .ok { st with archive := writeString st.archive st.pos line, pos := st.pos + 4 } := by
  unfold packLine
  rw [if_neg, if_neg, if_neg, if_neg]
  · simp [h4]
  · simp [h3]
  · simp [h2]
  · simp [h1]

/-! ## Write-pass and resolution preservation lemmas -/

theorem writeBytesAt_length (bytes : List Nat) :
    ∀ (data : List Nat) (addr : Nat), (writeBytesAt data addr bytes).length = data.length := by
  induction bytes with
  | nil => intro data addr; rfl
  | cons b rest ih =>
    intro data addr
    show (writeBytesAt (data.set addr b) (addr + 1) rest).length = data.length
    rw [ih]
    exact List.length_set data addr b

theorem packLine_data_length {st : PackState} {i : Nat} {line : List Char}
    {st' : PackState} (h : packLine st i line = .ok st') :
    st'.archive.data.length = st.archive.data.length := by
  unfold packLine at h
  split at h
  · injection h with h2
    subst h2
    rfl
  · split at h
    · injection h with h2
      subst h2
      simp [writeWord, writeBytesAt_length]
    · split at h
      · injection h with h2
        subst h2
        rfl
      · split at h
        · split at h
          · simp at h
          · split at h
            · injection h with h2
              subst h2
              simp [writeWord, writeBytesAt_length]
            · simp at h
        · injection h with h2
          subst h2
          rfl

theorem packLoop_data_length :
    ∀ (L : List (List Char)) (st : PackState) (i : Nat) (st' : PackState),
      packLoop st i L = .ok st' → st'.archive.data.length = st.archive.data.length := by
  intro L
  induction L with
  | nil =>
    intro st i st' h
    injection h with h2
    subst h2
    rfl
  | cons l rest ih =>
    intro st i st' h
    show _ = _
    unfold packLoop at h
    split at h
    · simp at h
    · rename_i st2 heq
      rw [ih st2 (i + 1) st' h, packLine_data_length heq]

theorem resolve_preserves (ps : List (List Char × Nat)) :
    ∀ (srcs : List (Nat × List Char)) (a : BinArchive) (b : BinArchive),
      resolve a ps srcs = .ok b →
      b.data = a.data ∧ b.strings = a.strings ∧ b.labels = a.labels := by
  intro srcs
  induction srcs with
  | nil =>
    intro a b h
    injection h with h2
    subst h2
    exact ⟨rfl, rfl, rfl⟩
  | cons p rest ih =>
    intro a b h
    obtain ⟨addr, pid⟩ := p
    unfold resolve at h
    split at h
    · obtain ⟨h1, h2, h3⟩ := ih _ _ h
      exact ⟨h1, h2, h3⟩
    · simp at h

/-- C5: `pack` splits on newlines, trims, and the archive it returns has
byte length exactly 4 times the number of lines that are nonempty and do
not start with `LABEL:` or `DEST:` (the allocation made before the write
pass, which no write changes). -/
theorem c5_pack_size (text : String) (b : BinArchive) (h : pack text = .ok b) :
    b.data.length =
      4 * (((splitNl text.data).map trimChars).filter contentBearing).length := by
  unfold pack at h
  split at h
  · simp at h
  · rename_i st heq
    have hd := (resolve_preserves st.pointers st.pointer_sources st.archive b h).1
    have hl := packLoop_data_length _ _ _ _ heq
    have : (packInit text).archive.data.length =
        ((linesOf text).filter contentBearing).length * 4 := by
      simp [packInit]
    rw [hd, hl, this]
    have hlin : linesOf text = (splitNl text.data).map trimChars := rfl
    rw [hlin]
    omega

/-- Witness for C5: a text with one of each directive line packs to a
12-byte archive, 4 bytes per content-bearing line. -/
theorem c5_witness :
    pack "DEST: 1\nLABEL: x\nhello\n0x00000000\nSRC: 1" =
      .ok { data := [0, 0, 0, 0, 0, 0, 0, 0, 0, 0, 0, 0]
            pointers := [(8, 0)], strings := [(0, "hello")], labels := [(0, ["x"])] } ∧
    ({ data := [0, 0, 0, 0, 0, 0, 0, 0, 0, 0, 0, 0]
       pointers := [(8, 0)], strings := [(0, "hello")],
       labels := [(0, ["x"])] } : BinArchive).data.length =
      4 * (((splitNl ("DEST: 1\nLABEL: x\nhello\n0x00000000\nSRC: 1" : String).data).map
        trimChars).filter contentBearing).length :=
  ⟨rfl, c5_pack_size _ _ rfl⟩

/-! ## Token collection lemmas for the write pass -/

theorem srcTokens_cons_src {l : List Char} (L : List (List Char))
    (h : hasLead "SRC:".data l = true) :
    srcTokens (l :: L) = trimChars (l.drop 4) :: srcTokens L := by
  unfold srcTokens
  rw [List.filterMap_cons]
  simp [h]

theorem srcTokens_cons_other {l : List Char} (L : List (List Char))
    (h : hasLead "SRC:".data l = false) :
    srcTokens (l :: L) = srcTokens L := by
  unfold srcTokens
  rw [List.filterMap_cons]
  simp [h]

theorem destTokens_cons_dest {l : List Char} (L : List (List Char))
    (h : hasLead "DEST:".data l = true) :
    destTokens (l :: L) = trimChars (l.drop 5) :: destTokens L := by
  unfold destTokens
  rw [List.filterMap_cons]
  simp [h]

theorem destTokens_cons_other {l : List Char} (L : List (List Char))
    (h : hasLead "DEST:".data l = false) :
    destTokens (l :: L) = destTokens L := by
  unfold destTokens
  rw [List.filterMap_cons]
  simp [h]

theorem isSome_alGet_alInsert {α β : Type} [DecidableEq α]
    (m : List (α × β)) (k k' : α) (v : β) :
    (alGet (alInsert m k v) k').isSome =
      ((k' = k) || (alGet m k').isSome) := by
  by_cases h : k' = k
  · subst h
    rw [alGet_alInsert_self]
    simp
  · rw [alGet_alInsert_ne _ _ _ _ h]
    simp [h]

/-- After a successful write pass, the pending-source tokens are exactly the
`SRC:` line tokens in order, and the destination map contains a token iff it
is some `DEST:` line token. -/
theorem packLoop_tokens :
    ∀ (L : List (List Char)) (st : PackState) (i : Nat) (st' : PackState),
      packLoop st i L = .ok st' →
      st'.pointer_sources.map Prod.snd = st.pointer_sources.map Prod.snd ++ srcTokens L ∧
      (∀ tok, (alGet st'.pointers tok).isSome =
        ((alGet st.pointers tok).isSome || decide (tok ∈ destTokens L))) := by
  intro L
  induction L with
  | nil =>
    intro st i st' h
    injection h with h2
    subst h2
    constructor
    · simp [srcTokens]
    · intro tok
      simp [destTokens]
  | cons l rest ih =>
    intro st i st' h
    unfold packLoop at h
    split at h
    · simp at h
    · rename_i st2 heq
      obtain ⟨ihs, ihd⟩ := ih st2 (i + 1) st' h
      by_cases hd : hasLead "DEST:".data l = true
      · rw [packLine_dest st i hd] at heq
        injection heq with heq2
        subst heq2
        refine ⟨?_, ?_⟩
        · rw [ihs]
          simp only []
          rw [srcTokens_cons_other rest (not_src_of_dest hd)]
        · intro tok
          rw [ihd tok]
          simp only []
          rw [destTokens_cons_dest rest hd]
          rw [isSome_alGet_alInsert]
          by_cases ht : tok = trimChars (l.drop 5)
          · simp [ht]
          · simp [ht]
      · have hd' : hasLead "DEST:".data l = false := by
          cases hh : hasLead "DEST:".data l
          · rfl
          · exact absurd hh hd
        by_cases hs : hasLead "SRC:".data l = true
        · rw [packLine_src st i hs] at heq
          injection heq with heq2
          subst heq2
          refine ⟨?_, ?_⟩
          · rw [ihs]
            simp only [List.map_append]
            rw [srcTokens_cons_src rest hs]
            simp
          · intro tok
            rw [ihd tok]
            simp only []
            rw [destTokens_cons_other rest hd']
        · have hs' : hasLead "SRC:".data l = false := by
            cases hh : hasLead "SRC:".data l
            · rfl
            · exact absurd hh hs
          have hcommon :
              st2.pointer_sources = st.pointer_sources ∧ st2.pointers = st.pointers := by
            by_cases hl : hasLead "LABEL:".data l = true
            · rw [packLine_label st i hl] at heq
              injection heq with heq2
              subst heq2
              exact ⟨rfl, rfl⟩
            · have hl' : hasLead "LABEL:".data l = false := by
                cases hh : hasLead "LABEL:".data l
                · rfl
                · exact absurd hh hl
              by_cases hx : hasLead "0x".data l = true
              · rw [packLine_hex st i hx] at heq
                split at heq
                · simp at heq
                · split at heq
                  · injection heq with heq2
                    subst heq2
                    exact ⟨rfl, rfl⟩
                  · simp at heq
              · have hx' : hasLead "0x".data l = false := by
                  cases hh : hasLead "0x".data l
                  · rfl
                  · exact absurd hh hx
                rw [packLine_string st i hd' hs' hl' hx'] at heq
                injection heq with heq2
                subst heq2
                exact ⟨rfl, rfl⟩
          obtain ⟨hps, hpt⟩ := hcommon
          refine ⟨?_, ?_⟩
          · rw [ihs, hps, srcTokens_cons_other rest hs']
          · intro tok
            rw [ihd tok, hpt, destTokens_cons_other rest hd']

/-! ## Resolution pass characterization -/

theorem resolve_ok_of_all (ps : List (List Char × Nat)) :
    ∀ (srcs : List (Nat × List Char)) (a : BinArchive),
      (∀ p ∈ srcs, (alGet ps p.2).isSome = true) →
      ∃ b, resolve a ps srcs = .ok b := by
  intro srcs
  induction srcs with
  | nil => intro a _; exact ⟨a, rfl⟩
  | cons p rest ih =>
    intro a hall
    obtain ⟨addr, pid⟩ := p
    have := hall (addr, pid) (by simp)
    rw [Option.isSome_iff_exists] at this
    obtain ⟨dest, hdest⟩ := this
    unfold resolve
    rw [hdest]
    exact ih _ (fun q hq => hall q (List.mem_cons_of_mem _ hq))

theorem resolve_error_of_find (ps : List (List Char × Nat)) :
    ∀ (srcs : List (Nat × List Char)) (a : BinArchive) (addr : Nat) (tok : List Char),
      srcs.find? (fun p => (alGet ps p.2).isNone) = some (addr, tok) →
      resolve a ps srcs = .error ("Unresolved pointer " ++ (⟨tok⟩ : String)) := by
  intro srcs
  induction srcs with
  | nil => intro a addr tok h; simp at h
  | cons p rest ih =>
    intro a addr tok h
    obtain ⟨addr0, pid0⟩ := p
    rw [List.find?_cons] at h
    split at h
    · rename_i hpred
      injection h with h2
      have hn : alGet ps pid0 = none := by
        simpa using hpred
      have ha : addr0 = addr ∧ pid0 = tok := by
        constructor
        · exact congrArg Prod.fst h2
        · exact congrArg Prod.snd h2
      unfold resolve
      rw [hn, ha.2]
    · rename_i hpred
      have hsome : (alGet ps pid0).isSome = true := by
        cases hh : alGet ps pid0 with
        | none => simp [hh] at hpred
        | some d => simp
      rw [Option.isSome_iff_exists] at hsome
      obtain ⟨dest, hdest⟩ := hsome
      unfold resolve
      rw [hdest]
      exact ih _ addr tok h

/-- C6: assuming the write pass succeeds (no hex failure), `pack` fails
with an unresolved-pointer error naming an offending token iff some `SRC:`
line's trimmed token equals no `DEST:` line's trimmed token anywhere in the
text, tokens compared as strings; the error carries no archive. -/
theorem c6_unresolved_pointer (text : String) (st : PackState)
    (h : packLoop (packInit text) 0 (linesOf text) = .ok st) :
    (∃ tok ∈ srcTokens (linesOf text), ¬ tok ∈ destTokens (linesOf text)) ↔
      (∃ tok, pack text = .error ("Unresolved pointer " ++ (⟨tok⟩ : String)) ∧
        tok ∈ srcTokens (linesOf text) ∧ ¬ tok ∈ destTokens (linesOf text)) := by
  obtain ⟨hsrc, hdest⟩ := packLoop_tokens (linesOf text) (packInit text) 0 st h
  have hsrc' : st.pointer_sources.map Prod.snd = srcTokens (linesOf text) := by
    rw [hsrc]
    rfl
  have hdest' : ∀ tok, (alGet st.pointers tok).isSome =
      decide (tok ∈ destTokens (linesOf text)) := by
    intro tok
    rw [hdest tok]
    have : (alGet (packInit text).pointers tok).isSome = false := rfl
    rw [this]
    simp
  have hpack : pack text = resolve st.archive st.pointers st.pointer_sources := by
    unfold pack
    rw [h]
  constructor
  · rintro ⟨tok, htok, hnd⟩
    have hex : ∃ p ∈ st.pointer_sources, ((alGet st.pointers p.2).isNone = true) := by
      rw [← hsrc'] at htok
      rw [List.mem_map] at htok
      obtain ⟨p, hp, hpe⟩ := htok
      refine ⟨p, hp, ?_⟩
      have h2 := hdest' tok
      cases hg : alGet st.pointers tok with
      | none =>
        rw [hpe, hg]
        rfl
      | some d =>
        rw [hg] at h2
        simp at h2
        exact absurd h2 hnd
    have hfind : (st.pointer_sources.find? (fun p => (alGet st.pointers p.2).isNone)).isSome := by
      rw [List.find?_isSome]
      exact hex
    rw [Option.isSome_iff_exists] at hfind
    obtain ⟨p0, hp0⟩ := hfind
    obtain ⟨addr0, tok0⟩ := p0
    have herr := resolve_error_of_find st.pointers st.pointer_sources st.archive addr0 tok0 hp0
    have hmem := List.mem_of_find?_eq_some hp0
    have hpred := List.find?_some hp0
    have htok0none : alGet st.pointers tok0 = none := by
      simpa using hpred
    refine ⟨tok0, by rw [hpack]; exact herr, ?_, ?_⟩
    · rw [← hsrc', List.mem_map]
      exact ⟨(addr0, tok0), hmem, rfl⟩
    · intro hmem2
      have := hdest' tok0
      rw [htok0none] at this
      simp [hmem2] at this
  · rintro ⟨tok, _, htok, hnd⟩
    exact ⟨tok, htok, hnd⟩

/-- Witness for C6: `SRC: 7` with no `DEST: 7` anywhere. -/
theorem c6_witness :
    (∃ tok ∈ srcTokens (linesOf "SRC: 7"), ¬ tok ∈ destTokens (linesOf "SRC: 7")) ∧
    ((∃ tok ∈ srcTokens (linesOf "SRC: 7"), ¬ tok ∈ destTokens (linesOf "SRC: 7")) ↔
      (∃ tok, pack "SRC: 7" = .error ("Unresolved pointer " ++ (⟨tok⟩ : String)) ∧
        tok ∈ srcTokens (linesOf "SRC: 7") ∧ ¬ tok ∈ destTokens (linesOf "SRC: 7"))) ∧
    pack "SRC: 7" = .error "Unresolved pointer 7" :=
  ⟨⟨['7'], by decide, by decide⟩,
    c6_unresolved_pointer "SRC: 7"
      { pointers := []
        pointer_sources := [(0, ['7'])]
        archive := { data := [0, 0, 0, 0], pointers := [], strings := [], labels := [] }
        pos := 4 } rfl,
    rfl⟩

/-! ## Failing-line characterization of the write pass -/

theorem packLine_ok_of_badHex_none (st : PackState) (i : Nat) {line : List Char}
    (h : badHex line = none) : ∃ st', packLine st i line = .ok st' := by
  by_cases hd : hasLead "DEST:".data line = true
  · exact ⟨_, packLine_dest st i hd⟩
  · have hd' : hasLead "DEST:".data line = false := by
      cases hh : hasLead "DEST:".data line
      · rfl
      · exact absurd hh hd
    by_cases hs : hasLead "SRC:".data line = true
    · exact ⟨_, packLine_src st i hs⟩
    · have hs' : hasLead "SRC:".data line = false := by
        cases hh : hasLead "SRC:".data line
        · rfl
        · exact absurd hh hs
      by_cases hl : hasLead "LABEL:".data line = true
      · exact ⟨_, packLine_label st i hl⟩
      · have hl' : hasLead "LABEL:".data line = false := by
          cases hh : hasLead "LABEL:".data line
          · rfl
          · exact absurd hh hl
        by_cases hx : hasLead "0x".data line = true
        · unfold badHex at h
          rw [if_pos hx] at h
          rw [packLine_hex st i hx]
          split at h
          · simp at h
          · rename_i bytes heq
            split at h
            · rename_i hlen
              rw [if_pos hlen]
              exact ⟨_, rfl⟩
            · simp at h
        · have hx' : hasLead "0x".data line = false := by
            cases hh : hasLead "0x".data line
            · rfl
            · exact absurd hh hx
          exact ⟨_, packLine_string st i hd' hs' hl' hx'⟩

theorem packLine_err_of_badHex (st : PackState) (i : Nat) {line : List Char} {k : Bool}
    (h : badHex line = some k) :
    packLine st i line =
      .error ((if k then "Bad hex string at line "
               else "Hex string has incorrect length at line ") ++ natToStr (i + 1)) := by
  unfold badHex at h
  split at h
  · rename_i hx
    rw [packLine_hex st i hx]
    split at h
    · rename_i e heq
      have hk : k = true := by
        injection h with h2
        exact h2.symm
      rw [hk]
      rfl
    · rename_i bytes heq
      split at h
      · simp at h
      · rename_i hlen
        rw [if_neg hlen]
        have hk : k = false := by
          injection h with h2
          exact h2.symm
        rw [hk]
        rfl
  · simp at h

theorem packLoop_err_at :
    ∀ (L : List (List Char)) (st : PackState) (i j : Nat) (lj : List Char) (k : Bool),
      L.get? j = some lj → badHex lj = some k →
      (∀ i' l', i' < j → L.get? i' = some l' → badHex l' = none) →
      packLoop st i L =
        .error ((if k then "Bad hex string at line "
                 else "Hex string has incorrect length at line ") ++ natToStr (i + j + 1)) := by
  intro L
  induction L with
  | nil =>
    intro st i j lj k hj
    simp at hj
  | cons l rest ih =>
    intro st i j lj k hj hbad hgood
    cases j with
    | zero =>
      have hl : l = lj := by simpa using hj
      subst hl
      unfold packLoop
      rw [packLine_err_of_badHex st i hbad]
    | succ j' =>
      have h0 : badHex l = none := hgood 0 l (by omega) (by simp)
      obtain ⟨st2, hst2⟩ := packLine_ok_of_badHex_none st i h0
      unfold packLoop
      rw [hst2]
      have harith : i + 1 + j' + 1 = i + (j' + 1) + 1 := by omega
      have hrec := ih st2 (i + 1) j' lj k (by simpa using hj) hbad
        (fun i' l' hi hl => hgood (i' + 1) l' (by omega) (by simpa using hl))
      show packLoop st2 (i + 1) rest = _
      rw [hrec, harith]

/-- C7 (amended): if the `j`-th (0-based) trimmed line is a `0x` line whose
remainder fails hex decoding (`some true`: odd length or a failing
two-character group) or decodes to a byte count other than 4
(`some false`), and no earlier line is itself a failing hex line, then
`pack` aborts with the corresponding descriptive error reporting the
1-based line number `j + 1`. -/
theorem c7_amended (text : String) (j : Nat) (k : Bool) (lj : List Char)
    (hj : (linesOf text).get? j = some lj) (hbad : badHex lj = some k)
    (hgood : ∀ i' l', i' < j → (linesOf text).get? i' = some l' → badHex l' = none) :
    pack text =
      .error ((if k then "Bad hex string at line "
               else "Hex string has incorrect length at line ") ++ natToStr (j + 1)) := by
  unfold pack
  rw [packLoop_err_at (linesOf text) (packInit text) 0 j lj k hj hbad hgood]
  have harith : 0 + j + 1 = j + 1 := by omega
  rw [harith]

/-- Witness for C7 (amended): `0xABC` (odd remainder) and `0xAABBCC`
(three bytes) each fail with a line-numbered error. -/
theorem c7_amended_witness :
    ((linesOf "0xABC").get? 0 = some "0xABC".data ∧
      badHex "0xABC".data = some true ∧
      pack "0xABC" = .error "Bad hex string at line 1") ∧
    ((linesOf "0xAABBCC").get? 0 = some "0xAABBCC".data ∧
      badHex "0xAABBCC".data = some false ∧
      pack "0xAABBCC" = .error "Hex string has incorrect length at line 1") :=
  ⟨⟨rfl, rfl,
    c7_amended "0xABC" 0 true "0xABC".data rfl rfl
      (fun i' l' hi _ => absurd hi (by omega))⟩,
   ⟨rfl, rfl,
    c7_amended "0xAABBCC" 0 false "0xAABBCC".data rfl rfl
      (fun i' l' hi _ => absurd hi (by omega))⟩⟩

/-! ## Clean-line facts for the emitted lines -/

theorem getLast?_append_right {l1 l2 : List Char} (h : l2 ≠ []) :
    (l1 ++ l2).getLast? = l2.getLast? :=
  List.getLast?_append_of_ne_nil l1 h

theorem goodLine_dest (id : Nat) : goodLine (destLineChars id) := by
  refine ⟨by simp [destLineChars_eq], ?_, ?_⟩
  · rw [destLineChars_eq]
    simp only [List.mem_cons, not_or]
    refine ⟨by decide, by decide, by decide, by decide, by decide, by decide, ?_⟩
    intro hmem
    exact natToChars_not_nl hmem rfl
  · refine trimChars_eq_self ?_ ?_
    · intro c hc
      rw [destLineChars_eq] at hc
      simp at hc
      subst hc
      decide
    · intro c hc
      rw [destLineChars_eq] at hc
      have h6 : destLineChars id =
          (['D', 'E', 'S', 'T', ':', ' '] : List Char) ++ natToChars id := by
        rw [destLineChars_eq]
        rfl
      rw [← destLineChars_eq, h6, getLast?_append_right (natToChars_ne_nil id)] at hc
      exact natToChars_not_ws (List.mem_of_mem_getLast? hc)

theorem goodLine_src (id : Nat) : goodLine (srcLineChars id) := by
  refine ⟨by simp [srcLineChars_eq], ?_, ?_⟩
  · rw [srcLineChars_eq]
    simp only [List.mem_cons, not_or]
    refine ⟨by decide, by decide, by decide, by decide, by decide, ?_⟩
    intro hmem
    exact natToChars_not_nl hmem rfl
  · refine trimChars_eq_self ?_ ?_
    · intro c hc
      rw [srcLineChars_eq] at hc
      simp at hc
      subst hc
      decide
    · intro c hc
      have h5 : srcLineChars id =
          (['S', 'R', 'C', ':', ' '] : List Char) ++ natToChars id := by
        rw [srcLineChars_eq]
        rfl
      rw [h5, getLast?_append_right (natToChars_ne_nil id)] at hc
      exact natToChars_not_ws (List.mem_of_mem_getLast? hc)

theorem goodLine_label (lab : String) (h1 : lab.data ≠ [])
    (h2 : trimChars lab.data = lab.data) (h3 : ¬ '\n' ∈ lab.data) :
    goodLine (labelLineChars lab) := by
  refine ⟨by simp [labelLineChars_eq], ?_, ?_⟩
  · rw [labelLineChars_eq]
    simp only [List.mem_cons, not_or]
    exact ⟨by decide, by decide, by decide, by decide, by decide, by decide, by decide, h3⟩
  · refine trimChars_eq_self ?_ ?_
    · intro c hc
      rw [labelLineChars_eq] at hc
      simp at hc
      subst hc
      decide
    · intro c hc
      have h7 : labelLineChars lab =
          (['L', 'A', 'B', 'E', 'L', ':', ' '] : List Char) ++ lab.data := by
        rw [labelLineChars_eq]
        rfl
      rw [h7, getLast?_append_right h1] at hc
      exact last_not_ws_of_trim_eq h2 c hc

theorem mem_hexLineChars {bytes : List Nat} {c : Char} (h : c ∈ hexLineChars bytes) :
    c = '0' ∨ c = 'x' ∨ ∃ m, m < 16 ∧ c = hexDigitChar m := by
  unfold hexLineChars byteToHexChars at h
  rw [hexPrefixData] at h
  simp at h
  rcases h with h | h | h | h | h | h | h | h | h | h
  · exact Or.inl h
  · exact Or.inr (Or.inl h)
  all_goals
    refine Or.inr (Or.inr ?_)
    subst h
    exact ⟨_, Nat.mod_lt _ (by omega), rfl⟩

theorem goodLine_hex (bytes : List Nat) : goodLine (hexLineChars bytes) := by
  refine ⟨?_, ?_, ?_⟩
  · unfold hexLineChars
    rw [hexPrefixData]
    simp
  · intro hmem
    rcases mem_hexLineChars hmem with h | h | ⟨m, hm, h⟩
    · exact absurd h.symm (by decide)
    · exact absurd h.symm (by decide)
    · exact hexDigit_not_nl m hm h.symm
  · refine trimChars_of_all_not_ws ?_
    intro c hc
    rcases mem_hexLineChars hc with h | h | ⟨m, hm, h⟩
    · subst h; decide
    · subst h; decide
    · subst h; exact hexDigit_not_ws m hm

/-! ## Addressing lemmas -/

theorem mem_wordAddrs_iff {s w : Nat} : w ∈ wordAddrs s ↔ w % 4 = 0 ∧ w < s := by
  unfold wordAddrs
  rw [List.mem_map]
  constructor
  · rintro ⟨j, hj, rfl⟩
    rw [List.mem_range] at hj
    omega
  · rintro ⟨h4, hs⟩
    refine ⟨w / 4, ?_, by omega⟩
    rw [List.mem_range]
    omega

theorem mul4_mem_wordAddrs {a : BinArchive} {j : Nat} (hj : j < wordCount a) :
    4 * j ∈ wordAddrs a.size := by
  unfold wordCount at hj
  rw [mem_wordAddrs_iff]
  omega

theorem srcMap_eq (a : BinArchive) {w : Nat} (hw : w ∈ wordAddrs a.size) :
    alGet (discover a).1 w = (a.read_pointer w).map (fun t => idxOf t (destIdList a)) := by
  rw [discover_spec]
  exact alGet_srcEntriesOf_mem a _ (wordAddrs_nodup a.size) hw

theorem destMap_eq (a : BinArchive) :
    (discover a).2 = enumAList (destIdList a) := by
  rw [discover_spec]

/-! ## Successor laws for the write-pass state descriptions -/

theorem filterMap_range_succ {β : Type} (f : Nat → Option β) (k : Nat) :
    (List.range (k + 1)).filterMap f = (List.range k).filterMap f ++ (f k).toList := by
  rw [List.range_succ, List.filterMap_append]
  cases h : f k <;> simp [h]

theorem destMapUpTo_succ (a : BinArchive) (k : Nat) :
    destMapUpTo a (k + 1) = destMapUpTo a k ++
      ((alGet (discover a).2 (4 * k)).map (fun id => (natToChars id, 4 * k))).toList := by
  unfold destMapUpTo
  rw [filterMap_range_succ]

theorem srcListUpTo_succ (a : BinArchive) (k : Nat) :
    srcListUpTo a (k + 1) = srcListUpTo a k ++
      ((alGet (discover a).1 (4 * k)).map (fun id => (4 * k, natToChars id))).toList := by
  unfold srcListUpTo
  rw [filterMap_range_succ]

theorem stringsUpTo_succ (a : BinArchive) (k : Nat) :
    stringsUpTo a (k + 1) = stringsUpTo a k ++
      ((if alGet (discover a).1 (4 * k) = none then
          (a.read_string (4 * k)).map (fun s => (4 * k, s))
        else none)).toList := by
  unfold stringsUpTo
  rw [filterMap_range_succ]

theorem labelsUpTo_succ (a : BinArchive) (k : Nat) :
    labelsUpTo a (k + 1) = labelsUpTo a k ++
      ((match a.read_labels (4 * k) with
        | some (l :: ls) => some (4 * k, l :: ls)
        | _ => none)).toList := by
  unfold labelsUpTo
  rw [filterMap_range_succ]

/-! ## Freshness of keys in the state descriptions -/

theorem alGet_stringsUpTo_ge (a : BinArchive) {k j : Nat} (h : k ≤ j) :
    alGet (stringsUpTo a k) (4 * j) = none := by
  apply alGet_eq_none_of_forall
  intro v hv
  unfold stringsUpTo at hv
  rw [List.mem_filterMap] at hv
  obtain ⟨j', hj', he⟩ := hv
  rw [List.mem_range] at hj'
  split at he
  · rw [Option.map_eq_some'] at he
    obtain ⟨s, _, he2⟩ := he
    have : 4 * j' = 4 * j := congrArg Prod.fst he2
    omega
  · simp at he

theorem alGet_labelsUpTo_ge (a : BinArchive) {k j : Nat} (h : k ≤ j) :
    alGet (labelsUpTo a k) (4 * j) = none := by
  apply alGet_eq_none_of_forall
  intro v hv
  unfold labelsUpTo at hv
  rw [List.mem_filterMap] at hv
  obtain ⟨j', hj', he⟩ := hv
  rw [List.mem_range] at hj'
  split at he
  · rename_i l ls _
    injection he with he2
    have : 4 * j' = 4 * j := congrArg Prod.fst he2
    omega
  · simp at he

theorem destIds_inj (a : BinArchive) {j1 j2 id1 id2 : Nat}
    (h1 : alGet (discover a).2 (4 * j1) = some id1)
    (h2 : alGet (discover a).2 (4 * j2) = some id2)
    (he : natToChars id1 = natToChars id2) : j1 = j2 := by
  rw [destMap_eq] at h1 h2
  have hid := natToChars_inj he
  subst hid
  by_cases hm1 : 4 * j1 ∈ destIdList a
  · by_cases hm2 : 4 * j2 ∈ destIdList a
    · rw [alGet_enumAList_mem hm1] at h1
      rw [alGet_enumAList_mem hm2] at h2
      injection h1 with h1'
      injection h2 with h2'
      have : (4 * j1 : Nat) = 4 * j2 := by
        apply idxOf_inj hm1 hm2
        omega
      omega
    · rw [alGet_enumAList_not_mem hm2] at h2
      exact absurd h2 (by simp)
  · rw [alGet_enumAList_not_mem hm1] at h1
    exact absurd h1 (by simp)

theorem alGet_destMapUpTo_ge (a : BinArchive) {k j id : Nat} (h : k ≤ j)
    (hdest : alGet (discover a).2 (4 * j) = some id) :
    alGet (destMapUpTo a k) (natToChars id) = none := by
  apply alGet_eq_none_of_forall
  intro v hv
  unfold destMapUpTo at hv
  rw [List.mem_filterMap] at hv
  obtain ⟨j', hj', he⟩ := hv
  rw [List.mem_range] at hj'
  rw [Option.map_eq_some'] at he
  obtain ⟨id', hd', he2⟩ := he
  have htok : natToChars id' = natToChars id := congrArg Prod.fst he2
  have := destIds_inj a hd' hdest htok
  omega

/-! ## Byte-buffer lemmas -/

theorem getD_set_self (l : List Nat) (i : Nat) (v : Nat) (h : i < l.length) :
    (l.set i v).getD i 0 = v := by
  induction l generalizing i with
  | nil => simp at h
  | cons x rest ih =>
    cases i with
    | zero => rfl
    | succ i' =>
      show ((x :: rest.set i' v).getD (i' + 1) 0) = v
      simp only [List.getD_cons_succ]
      exact ih i' (by simpa using h)

theorem getD_set_ne (l : List Nat) (i j v : Nat) (h : i ≠ j) :
    (l.set i v).getD j 0 = l.getD j 0 := by
  induction l generalizing i j with
  | nil => simp
  | cons x rest ih =>
    cases i with
    | zero =>
      cases j with
      | zero => exact absurd rfl h
      | succ j' => rfl
    | succ i' =>
      cases j with
      | zero => rfl
      | succ j' =>
        show ((x :: rest.set i' v).getD (j' + 1) 0) = (x :: rest).getD (j' + 1) 0
        simp only [List.getD_cons_succ]
        exact ih i' j' (by omega)

theorem writeBytesAt_getD (bytes : List Nat) :
    ∀ (data : List Nat) (addr : Nat), addr + bytes.length ≤ data.length →
      ∀ idx, (writeBytesAt data addr bytes).getD idx 0 =
        if addr ≤ idx ∧ idx < addr + bytes.length then bytes.getD (idx - addr) 0
        else data.getD idx 0 := by
  induction bytes with
  | nil =>
    intro data addr _ idx
    show data.getD idx 0 = _
    rw [if_neg (by simp only [List.length_nil]; omega)]
  | cons b rest ih =>
    intro data addr hle idx
    simp only [List.length_cons] at hle
    have hle' : addr + 1 + rest.length ≤ (data.set addr b).length := by
      rw [List.length_set]
      omega
    show (writeBytesAt (data.set addr b) (addr + 1) rest).getD idx 0 = _
    rw [ih (data.set addr b) (addr + 1) hle']
    simp only [List.length_cons]
    by_cases h1 : addr + 1 ≤ idx ∧ idx < addr + 1 + rest.length
    · rw [if_pos h1, if_pos (by omega)]
      have heq : idx - addr = (idx - (addr + 1)) + 1 := by omega
      rw [heq]
      rfl
    · rw [if_neg h1]
      by_cases h2 : idx = addr
      · subst h2
        rw [getD_set_self data idx b (by omega)]
        rw [if_pos (by omega)]
        have hz : idx - idx = 0 := by omega
        rw [hz]
        rfl
      · rw [getD_set_ne data addr idx b (fun he => h2 he.symm)]
        rw [if_neg (by omega)]

theorem length_packedDataUpTo (a : BinArchive) (k : Nat) :
    (packedDataUpTo a k).length = 4 * wordCount a := by
  unfold packedDataUpTo
  simp

theorem getD_packedDataUpTo (a : BinArchive) (k idx : Nat) :
    (packedDataUpTo a k).getD idx 0 =
      if idx < 4 * wordCount a then packedByte a k idx else 0 := by
  unfold packedDataUpTo
  by_cases h : idx < 4 * wordCount a
  · rw [if_pos h]
    rw [List.getD_eq_getElem?_getD]
    rw [List.getElem?_map]
    rw [List.getElem?_range h]
    rfl
  · rw [if_neg h]
    rw [List.getD_eq_getElem?_getD]
    rw [List.getElem?_map]
    rw [List.getElem?_eq_none (by rw [List.length_range]; omega)]
    rfl

theorem packedByte_mono (a : BinArchive) {k idx : Nat} (h : idx / 4 ≠ k) :
    packedByte a (k + 1) idx = packedByte a k idx := by
  unfold packedByte
  by_cases h1 : idx / 4 < k
  · rw [if_pos (by omega), if_pos h1]
  · rw [if_neg (by omega), if_neg (by omega)]

theorem list_ext_getD (l1 l2 : List Nat) (hlen : l1.length = l2.length)
    (h : ∀ i, i < l1.length → l1.getD i 0 = l2.getD i 0) : l1 = l2 := by
  refine List.ext_getElem hlen ?_
  intro i h1 h2
  have := h i h1
  rw [List.getD_eq_getElem?_getD, List.getD_eq_getElem?_getD] at this
  rw [List.getElem?_eq_getElem h1, List.getElem?_eq_getElem h2] at this
  simpa using this

/-- Writing a word at the cursor produces exactly the next state of the
packed buffer, provided the bytes agree with the intended word. -/
theorem packedData_set (a : BinArchive) {k : Nat} (hk : k < wordCount a)
    (bytes : List Nat) (hlen : bytes.length = 4)
    (hval : ∀ b, b < 4 → bytes.getD b 0 = packedByte a (k + 1) (4 * k + b)) :
    writeBytesAt (packedDataUpTo a k) (4 * k) bytes = packedDataUpTo a (k + 1) := by
  have hlen1 : (writeBytesAt (packedDataUpTo a k) (4 * k) bytes).length
      = 4 * wordCount a := by
    rw [writeBytesAt_length, length_packedDataUpTo]
  apply list_ext_getD
  · rw [hlen1, length_packedDataUpTo]
  · intro i hi
    rw [hlen1] at hi
    rw [writeBytesAt_getD bytes (packedDataUpTo a k) (4 * k)
      (by rw [length_packedDataUpTo]; omega)]
    rw [getD_packedDataUpTo, if_pos hi]
    by_cases hrange : 4 * k ≤ i ∧ i < 4 * k + bytes.length
    · rw [if_pos hrange]
      have hb := hval (i - 4 * k) (by omega)
      have : 4 * k + (i - 4 * k) = i := by omega
      rw [this] at hb
      rw [hb, getD_packedDataUpTo, if_pos hi]
    · rw [if_neg hrange]
      rw [getD_packedDataUpTo, if_pos hi]
      rw [packedByte_mono a (by omega)]

theorem read_bytes_four (a : BinArchive) (addr : Nat) :
    a.read_bytes addr 4 =
      [a.data.getD addr 0, a.data.getD (addr + 1) 0,
       a.data.getD (addr + 2) 0, a.data.getD (addr + 3) 0] := by
  unfold BinArchive.read_bytes
  rfl

theorem packedDataUpTo_zero (a : BinArchive) :
    packedDataUpTo a 0 = List.replicate (4 * wordCount a) 0 := by
  apply list_ext_getD
  · rw [length_packedDataUpTo, List.length_replicate]
  · intro i hi
    rw [length_packedDataUpTo] at hi
    rw [getD_packedDataUpTo, if_pos hi]
    unfold packedByte
    rw [if_neg (by omega)]
    rw [List.getD_eq_getElem?_getD, List.getElem?_replicate]
    simp [hi]

/-! ## Replay of the write pass: line dispatch -/

theorem packLoop_append :
    ∀ (xs ys : List (List Char)) (st : PackState) (i : Nat),
      packLoop st i (xs ++ ys) =
        match packLoop st i xs with
        | .error e => .error e
        | .ok st2 => packLoop st2 (i + xs.length) ys := by
  intro xs
  induction xs with
  | nil =>
    intro ys st i
    rfl
  | cons x rest ih =>
    intro ys st i
    show (match packLine st i x with
          | Except.error e => Except.error e
          | Except.ok st2 => packLoop st2 (i + 1) (rest ++ ys)) =
        (match (match packLine st i x with
                | Except.error e => Except.error e
                | Except.ok st2 => packLoop st2 (i + 1) rest) with
          | Except.error e => Except.error e
          | Except.ok st2 => packLoop st2 (i + (x :: rest).length) ys)
    cases packLine st i x with
    | error e => rfl
    | ok st2 =>
      show packLoop st2 (i + 1) (rest ++ ys) = _
      rw [ih ys st2 (i + 1)]
      have harith : i + 1 + rest.length = i + (x :: rest).length := by
        simp only [List.length_cons]
        omega
      rw [harith]

theorem hasLead_destLine (id : Nat) :
    hasLead "DEST:".data (destLineChars id) = true := by
  rw [destPrefixData, destLineChars_eq]
  simp [hasLead]

theorem hasLead_srcLine (id : Nat) :
    hasLead "SRC:".data (srcLineChars id) = true := by
  rw [srcPrefixData, srcLineChars_eq]
  simp [hasLead]

theorem hasLead_labelLine (lab : String) :
    hasLead "LABEL:".data (labelLineChars lab) = true := by
  rw [labelPrefixData, labelLineChars_eq]
  simp [hasLead]

theorem hasLead_hexLine (bytes : List Nat) :
    hasLead "0x".data (hexLineChars bytes) = true := by
  unfold hexLineChars
  rw [hexPrefixData]
  show hasLead ['0', 'x'] ('0' :: 'x' :: _) = true
  simp [hasLead]

theorem destLine_token (id : Nat) :
    trimChars ((destLineChars id).drop 5) = natToChars id := by
  rw [destLineChars_eq]
  show trimChars (' ' :: natToChars id) = natToChars id
  rw [trimChars_cons_space]
  exact trimChars_of_all_not_ws (fun c hc => natToChars_not_ws hc)

theorem srcLine_token (id : Nat) :
    trimChars ((srcLineChars id).drop 4) = natToChars id := by
  rw [srcLineChars_eq]
  show trimChars (' ' :: natToChars id) = natToChars id
  rw [trimChars_cons_space]
  exact trimChars_of_all_not_ws (fun c hc => natToChars_not_ws hc)

theorem labelLine_token (lab : String) (h : trimChars lab.data = lab.data) :
    trimChars ((labelLineChars lab).drop 6) = lab.data := by
  rw [labelLineChars_eq]
  show trimChars (' ' :: lab.data) = lab.data
  rw [trimChars_cons_space, h]

/-! ## Replay of the label lines -/

theorem labels_fold (ls : List String) :
    ∀ (st : PackState) (i : Nat) (T : List (Nat × List String)) (acc : List String),
      (∀ l ∈ ls, trimChars l.data = l.data) →
      st.archive.labels = T ++ [(st.pos, acc)] →
      alGet T st.pos = none →
      ∃ st', packLoop st i (ls.map labelLineChars) = .ok st' ∧
        st'.pos = st.pos ∧ st'.pointers = st.pointers ∧
        st'.pointer_sources = st.pointer_sources ∧
        st'.archive.data = st.archive.data ∧
        st'.archive.strings = st.archive.strings ∧
        st'.archive.pointers = st.archive.pointers ∧
        st'.archive.labels = T ++ [(st.pos, acc ++ ls)] := by
  induction ls with
  | nil =>
    intro st i T acc _ hT _
    refine ⟨st, rfl, rfl, rfl, rfl, rfl, rfl, rfl, ?_⟩
    rw [List.append_nil]
    exact hT
  | cons l ls' ih =>
    intro st i T acc hgood hT hfresh
    have hAl : alGet st.archive.labels st.pos = some acc := by
      rw [hT, alGet_append, hfresh]
      simp [alGet]
    have hstep := packLine_label st i (hasLead_labelLine l)
    rw [labelLine_token l (hgood l (by simp))] at hstep
    have hlab2 : (writeLabel st.archive st.pos l.data).labels =
        T ++ [(st.pos, acc ++ [l])] := by
      unfold writeLabel
      rw [hAl]
      show alInsert st.archive.labels st.pos (acc ++ [(⟨l.data⟩ : String)]) = _
      rw [hT, alInsert_append_last _ _ hfresh]
    obtain ⟨st', hloop, hpos, hptr, hsrc, hdata, hstr, hapt, hlabs⟩ :=
      ih { st with archive := writeLabel st.archive st.pos l.data } (i + 1) T (acc ++ [l])
        (fun x hx => hgood x (List.mem_cons_of_mem _ hx))
        (by
          show (writeLabel st.archive st.pos l.data).labels = T ++ [(st.pos, acc ++ [l])]
          exact hlab2)
        hfresh
    refine ⟨st', ?_, hpos, hptr, hsrc, hdata, hstr, hapt, ?_⟩
    · show (match packLine st i (labelLineChars l) with
            | Except.error e => Except.error e
            | Except.ok st2 => packLoop st2 (i + 1) (ls'.map labelLineChars)) = Except.ok st'
      rw [hstep]
      exact hloop
    · rw [hlabs]
      simp

/-! ## Successor corollaries for the per-word state descriptions -/

theorem destMapUpTo_succ_none {a : BinArchive} {k : Nat}
    (h : alGet (discover a).2 (4 * k) = none) :
    destMapUpTo a (k + 1) = destMapUpTo a k := by
  rw [destMapUpTo_succ, h]
  simp

theorem destMapUpTo_succ_some {a : BinArchive} {k id : Nat}
    (h : alGet (discover a).2 (4 * k) = some id) :
    destMapUpTo a (k + 1) = destMapUpTo a k ++ [(natToChars id, 4 * k)] := by
  rw [destMapUpTo_succ, h]
  simp

theorem srcListUpTo_succ_none {a : BinArchive} {k : Nat}
    (h : alGet (discover a).1 (4 * k) = none) :
    srcListUpTo a (k + 1) = srcListUpTo a k := by
  rw [srcListUpTo_succ, h]
  simp

theorem srcListUpTo_succ_some {a : BinArchive} {k id : Nat}
    (h : alGet (discover a).1 (4 * k) = some id) :
    srcListUpTo a (k + 1) = srcListUpTo a k ++ [(4 * k, natToChars id)] := by
  rw [srcListUpTo_succ, h]
  simp

theorem stringsUpTo_succ_src {a : BinArchive} {k id : Nat}
    (h : alGet (discover a).1 (4 * k) = some id) :
    stringsUpTo a (k + 1) = stringsUpTo a k := by
  rw [stringsUpTo_succ]
  rw [if_neg (by rw [h]; simp)]
  simp

theorem stringsUpTo_succ_none {a : BinArchive} {k : Nat}
    (h1 : alGet (discover a).1 (4 * k) = none) (h2 : a.read_string (4 * k) = none) :
    stringsUpTo a (k + 1) = stringsUpTo a k := by
  rw [stringsUpTo_succ, if_pos h1, h2]
  simp

theorem stringsUpTo_succ_some {a : BinArchive} {k : Nat} {s : String}
    (h1 : alGet (discover a).1 (4 * k) = none) (h2 : a.read_string (4 * k) = some s) :
    stringsUpTo a (k + 1) = stringsUpTo a k ++ [(4 * k, s)] := by
  rw [stringsUpTo_succ, if_pos h1, h2]
  simp

theorem labelsUpTo_succ_none {a : BinArchive} {k : Nat}
    (h : a.read_labels (4 * k) = none) :
    labelsUpTo a (k + 1) = labelsUpTo a k := by
  rw [labelsUpTo_succ, h]
  simp

theorem labelsUpTo_succ_nil {a : BinArchive} {k : Nat}
    (h : a.read_labels (4 * k) = some []) :
    labelsUpTo a (k + 1) = labelsUpTo a k := by
  rw [labelsUpTo_succ, h]
  simp

theorem labelsUpTo_succ_cons {a : BinArchive} {k : Nat} {l : String} {ls : List String}
    (h : a.read_labels (4 * k) = some (l :: ls)) :
    labelsUpTo a (k + 1) = labelsUpTo a k ++ [(4 * k, l :: ls)] := by
  rw [labelsUpTo_succ, h]
  simp

theorem packedData_succ_string {a : BinArchive} {k : Nat} {s : String}
    (hstr : a.read_string (4 * k) = some s) :
    packedDataUpTo a (k + 1) = packedDataUpTo a k := by
  apply list_ext_getD
  · rw [length_packedDataUpTo, length_packedDataUpTo]
  · intro i hi
    rw [length_packedDataUpTo] at hi
    rw [getD_packedDataUpTo, getD_packedDataUpTo, if_pos hi, if_pos hi]
    by_cases hik : i / 4 = k
    · have hL : packedByte a (k + 1) i = 0 := by
        unfold packedByte
        rw [if_pos (by omega)]
        rw [if_neg (by rw [hik, hstr]; simp)]
      have hR : packedByte a k i = 0 := by
        unfold packedByte
        rw [if_neg (by omega)]
      rw [hL, hR]
    · exact packedByte_mono a hik

theorem packLoop_single (st : PackState) (i : Nat) (l : List Char) (st2 : PackState)
    (h : packLine st i l = .ok st2) : packLoop st i [l] = .ok st2 := by
  unfold packLoop
  rw [h]
  rfl

theorem packLoop_append_ok {xs ys : List (List Char)} {st : PackState} {i : Nat}
    {st1 st2 : PackState} (hx : packLoop st i xs = .ok st1)
    (hy : packLoop st1 (i + xs.length) ys = .ok st2) :
    packLoop st i (xs ++ ys) = .ok st2 := by
  rw [packLoop_append, hx]
  exact hy

/-! ## Phases of one word group -/

theorem c1_dest_step (a : BinArchive) (k : Nat) (st : PackState) (i : Nat)
    (h1 : st.pos = 4 * k) (h2 : st.pointers = destMapUpTo a k) :
    ∃ std,
      packLoop st i
        (match alGet (discover a).2 (4 * k) with
         | some id => [destLineChars id]
         | none => []) = .ok std ∧
      std.pos = 4 * k ∧ std.pointers = destMapUpTo a (k + 1) ∧
      std.pointer_sources = st.pointer_sources ∧ std.archive = st.archive := by
  cases hdest : alGet (discover a).2 (4 * k) with
  | none =>
    exact ⟨st, rfl, h1, by rw [destMapUpTo_succ_none hdest]; exact h2, rfl, rfl⟩
  | some id =>
    refine ⟨{ st with pointers := alInsert st.pointers (trimChars ((destLineChars id).drop 5)) st.pos }, ?_, h1, ?_, rfl, rfl⟩
    · exact packLoop_single st i _ _ (packLine_dest st i (hasLead_destLine id))
    · show alInsert st.pointers (trimChars ((destLineChars id).drop 5)) st.pos
          = destMapUpTo a (k + 1)
      rw [destLine_token, h2, h1]
      rw [alInsert_of_none _ (alGet_destMapUpTo_ge a (le_refl k) hdest)]
      rw [destMapUpTo_succ_some hdest]

theorem c1_labels_step (a : BinArchive) (k : Nat)
    (hlabgood : ∀ ls, a.read_labels (4 * k) = some ls →
      ∀ l ∈ ls, trimChars l.data = l.data)
    (std : PackState) (i : Nat)
    (g1 : std.pos = 4 * k) (g6 : std.archive.labels = labelsUpTo a k) :
    ∃ stl,
      packLoop std i
        (match a.read_labels (4 * k) with
         | some labels => labels.map labelLineChars
         | none => []) = .ok stl ∧
      stl.pos = std.pos ∧ stl.pointers = std.pointers ∧
      stl.pointer_sources = std.pointer_sources ∧
      stl.archive.data = std.archive.data ∧
      stl.archive.strings = std.archive.strings ∧
      stl.archive.pointers = std.archive.pointers ∧
      stl.archive.labels = labelsUpTo a (k + 1) := by
  cases hlab : a.read_labels (4 * k) with
  | none =>
    refine ⟨std, rfl, rfl, rfl, rfl, rfl, rfl, rfl, ?_⟩
    rw [labelsUpTo_succ_none hlab]
    exact g6
  | some ls =>
    cases ls with
    | nil =>
      refine ⟨std, rfl, rfl, rfl, rfl, rfl, rfl, rfl, ?_⟩
      rw [labelsUpTo_succ_nil hlab]
      exact g6
    | cons l ls' =>
      have hgood := hlabgood (l :: ls') hlab
      have hfresh : alGet (labelsUpTo a k) (4 * k) = none :=
        alGet_labelsUpTo_ge a (le_refl k)
      have hstep := packLine_label std i (hasLead_labelLine l)
      rw [labelLine_token l (hgood l (by simp))] at hstep
      have hlab1 : (writeLabel std.archive std.pos l.data).labels =
          labelsUpTo a k ++ [(std.pos, [l])] := by
        unfold writeLabel
        rw [g6, g1, hfresh]
        show alInsert (labelsUpTo a k) (4 * k) [(⟨l.data⟩ : String)] = _
        rw [alInsert_of_none _ hfresh]
      obtain ⟨stl, hloop, hpos, hptr, hsrc, hdata, hstr, hapt, hlabs⟩ :=
        labels_fold ls' { std with archive := writeLabel std.archive std.pos l.data }
          (i + 1) (labelsUpTo a k) [l]
          (fun x hx => hgood x (List.mem_cons_of_mem _ hx))
          (by
            show (writeLabel std.archive std.pos l.data).labels
                = labelsUpTo a k ++ [(std.pos, [l])]
            exact hlab1)
          (by
            show alGet (labelsUpTo a k) std.pos = none
            rw [g1]
            exact hfresh)
      refine ⟨stl, ?_, hpos, hptr, hsrc, hdata, hstr, hapt, ?_⟩
      · show (match packLine std i (labelLineChars l) with
              | Except.error e => Except.error e
              | Except.ok st2 => packLoop st2 (i + 1) (ls'.map labelLineChars))
            = Except.ok stl
        rw [hstep]
        exact hloop
      · rw [hlabs, g1, labelsUpTo_succ_cons hlab]
        rfl

theorem c1_content_step (a : BinArchive) (hyg : Hygienic a) (k : Nat)
    (hk : k < wordCount a) (stl : PackState) (i : Nat)
    (g1 : stl.pos = 4 * k)
    (g3 : stl.pointer_sources = srcListUpTo a k)
    (g4 : stl.archive.data = packedDataUpTo a k)
    (g5 : stl.archive.strings = stringsUpTo a k) :
    ∃ st',
      packLoop stl i
        [match alGet (discover a).1 (4 * k) with
         | some id => srcLineChars id
         | none =>
           match a.read_string (4 * k) with
           | some text => text.data
           | none => hexLineChars (a.read_bytes (4 * k) 4)] = .ok st' ∧
      st'.pos = 4 * (k + 1) ∧ st'.pointers = stl.pointers ∧
      st'.pointer_sources = srcListUpTo a (k + 1) ∧
      st'.archive.data = packedDataUpTo a (k + 1) ∧
      st'.archive.strings = stringsUpTo a (k + 1) ∧
      st'.archive.labels = stl.archive.labels ∧
      st'.archive.pointers = stl.archive.pointers := by
  obtain ⟨hygPtr, hygStr, hygLab⟩ := hyg
  have hw : 4 * k ∈ wordAddrs a.size := mul4_mem_wordAddrs hk
  cases hsrcv : alGet (discover a).1 (4 * k) with
  | some id =>
    refine ⟨_, packLoop_single stl i _ _ (packLine_src stl i (hasLead_srcLine id)),
      ?_, rfl, ?_, ?_, ?_, rfl, rfl⟩
    · show stl.pos + 4 = 4 * (k + 1)
      omega
    · show stl.pointer_sources ++ [(stl.pos, trimChars ((srcLineChars id).drop 4))]
          = srcListUpTo a (k + 1)
      rw [srcLine_token, g3, g1, srcListUpTo_succ_some hsrcv]
    · show writeBytesAt stl.archive.data stl.pos [0, 0, 0, 0] = packedDataUpTo a (k + 1)
      rw [g4, g1]
      apply packedData_set a hk
      · rfl
      · intro b hb
        unfold packedByte
        have hdiv : (4 * k + b) / 4 = k := by omega
        rw [hdiv]
        rw [if_pos (by omega)]
        rw [if_neg (by rw [hsrcv]; simp)]
        interval_cases b <;> rfl
    · show stl.archive.strings = stringsUpTo a (k + 1)
      rw [stringsUpTo_succ_src hsrcv]
      exact g5
  | none =>
    have hptr_none : a.read_pointer (4 * k) = none := by
      have hm := srcMap_eq a hw
      rw [hsrcv] at hm
      exact Option.map_eq_none'.mp hm.symm
    cases hstrv : a.read_string (4 * k) with
    | some s =>
      obtain ⟨hne, htrim, hnl, hD, hS, hL, hX⟩ := hygStr (4 * k) hw hptr_none s hstrv
      refine ⟨_, packLoop_single stl i _ _ (packLine_string stl i hD hS hL hX),
        ?_, rfl, ?_, ?_, ?_, rfl, rfl⟩
      · show stl.pos + 4 = 4 * (k + 1)
        omega
      · show stl.pointer_sources = srcListUpTo a (k + 1)
        rw [srcListUpTo_succ_none hsrcv]
        exact g3
      · show stl.archive.data = packedDataUpTo a (k + 1)
        rw [packedData_succ_string hstrv]
        exact g4
      · show alInsert stl.archive.strings stl.pos ⟨s.data⟩ = stringsUpTo a (k + 1)
        rw [g5, g1]
        rw [alInsert_of_none _ (alGet_stringsUpTo_ge a (le_refl k))]
        rw [stringsUpTo_succ_some hsrcv hstrv]
    | none =>
      have hpl : packLine stl i (hexLineChars (a.read_bytes (4 * k) 4)) =
          .ok { stl with
                archive := writeWord stl.archive stl.pos
                  [a.data.getD (4 * k) 0 % 256, a.data.getD (4 * k + 1) 0 % 256,
                   a.data.getD (4 * k + 2) 0 % 256, a.data.getD (4 * k + 3) 0 % 256],
                pos := stl.pos + 4 } := by
        rw [packLine_hex stl i (hasLead_hexLine _)]
        rw [read_bytes_four]
        rw [decodeHex_hexLine]
        rfl
      refine ⟨_, packLoop_single stl i _ _ hpl, ?_, rfl, ?_, ?_, ?_, rfl, rfl⟩
      · show stl.pos + 4 = 4 * (k + 1)
        omega
      · show stl.pointer_sources = srcListUpTo a (k + 1)
        rw [srcListUpTo_succ_none hsrcv]
        exact g3
      · show writeBytesAt stl.archive.data stl.pos _ = packedDataUpTo a (k + 1)
        rw [g4, g1]
        apply packedData_set a hk
        · rfl
        · intro b hb
          unfold packedByte
          have hdiv : (4 * k + b) / 4 = k := by omega
          rw [hdiv]
          rw [if_pos (by omega)]
          rw [if_pos ⟨hsrcv, hstrv⟩]
          interval_cases b <;> rfl
      · show stl.archive.strings = stringsUpTo a (k + 1)
        rw [stringsUpTo_succ_none hsrcv hstrv]
        exact g5

/-- Replaying the full line group of one word address advances every state
description by one word. -/
theorem c1_group_step (a : BinArchive) (hyg : Hygienic a) (k : Nat)
    (hk : k < wordCount a) (st : PackState) (i : Nat)
    (h1 : st.pos = 4 * k)
    (h2 : st.pointers = destMapUpTo a k)
    (h3 : st.pointer_sources = srcListUpTo a k)
    (h4 : st.archive.data = packedDataUpTo a k)
    (h5 : st.archive.strings = stringsUpTo a k)
    (h6 : st.archive.labels = labelsUpTo a k)
    (h7 : st.archive.pointers = []) :
    ∃ st', packLoop st i (addrLines a (discover a).1 (discover a).2 (4 * k)) = .ok st' ∧
      st'.pos = 4 * (k + 1) ∧
      st'.pointers = destMapUpTo a (k + 1) ∧
      st'.pointer_sources = srcListUpTo a (k + 1) ∧
      st'.archive.data = packedDataUpTo a (k + 1) ∧
      st'.archive.strings = stringsUpTo a (k + 1) ∧
      st'.archive.labels = labelsUpTo a (k + 1) ∧
      st'.archive.pointers = [] := by
  have hw : 4 * k ∈ wordAddrs a.size := mul4_mem_wordAddrs hk
  obtain ⟨std, e1, p1, p2, p3, p4⟩ := c1_dest_step a k st i h1 h2
  obtain ⟨stl, e2, q1, q2, q3, q4, q5, q6, q7⟩ :=
    c1_labels_step a k
      (fun ls hls l hl => (hyg.2.2 (4 * k) hw ls hls l hl).2.1)
      std _ p1 (by rw [p4]; exact h6)
  obtain ⟨st', e3, r1, r2, r3, r4, r5, r6, r7⟩ :=
    c1_content_step a hyg k hk stl _
      (by rw [q1]; exact p1)
      (by rw [q3, p3]; exact h3)
      (by rw [q4, p4]; exact h4)
      (by rw [q5, p4]; exact h5)
  refine ⟨st', ?_, r1, ?_, r3, r4, r5, ?_, ?_⟩
  · show packLoop st i
        ((match alGet (discover a).2 (4 * k) with
          | some id => [destLineChars id]
          | none => []) ++
         (match a.read_labels (4 * k) with
          | some labels => labels.map labelLineChars
          | none => []) ++
         [match alGet (discover a).1 (4 * k) with
          | some id => srcLineChars id
          | none =>
            match a.read_string (4 * k) with
            | some text => text.data
            | none => hexLineChars (a.read_bytes (4 * k) 4)]) = Except.ok st'
    exact packLoop_append_ok (packLoop_append_ok e1 e2) e3
  · rw [r2, q2, p2]
  · rw [r6, q7]
  · rw [r7, q6, p4]
    exact h7

/-! ## The emitted lines are clean and counted -/

theorem flatMap_congr_mem {α β : Type} {l : List α} {f g : α → List β}
    (h : ∀ x ∈ l, f x = g x) : l.flatMap f = l.flatMap g := by
  induction l with
  | nil => rfl
  | cons x rest ih =>
    rw [List.flatMap_cons, List.flatMap_cons, h x (by simp),
      ih (fun y hy => h y (List.mem_cons_of_mem _ hy))]

theorem unpackLines_eq_range_flatMap (a : BinArchive) :
    unpackLines a = (List.range (wordCount a)).flatMap
      (fun j => addrLines a (discover a).1 (discover a).2 (4 * j)) := by
  rw [unpackLines_eq_flatMap]
  show (((List.range (wordCount a)).map (· * 4)).flatMap
      (addrLines a (discover a).1 (discover a).2)) = _
  rw [List.flatMap_map]
  refine flatMap_congr_mem ?_
  intro j _
  show addrLines a (discover a).1 (discover a).2 (j * 4) = _
  rw [Nat.mul_comm j 4]

theorem addrLines_good (a : BinArchive) (hyg : Hygienic a) {j : Nat}
    (hj : j < wordCount a) :
    ∀ l ∈ addrLines a (discover a).1 (discover a).2 (4 * j), goodLine l := by
  intro l hl
  unfold addrLines at hl
  rw [List.mem_append, List.mem_append] at hl
  rcases hl with (h1 | h2) | h3
  · cases hdest : alGet (discover a).2 (4 * j) with
    | none =>
      rw [hdest] at h1
      simp at h1
    | some id =>
      rw [hdest] at h1
      simp at h1
      subst h1
      exact goodLine_dest id
  · cases hlab : a.read_labels (4 * j) with
    | none =>
      rw [hlab] at h2
      simp at h2
    | some ls =>
      rw [hlab] at h2
      simp only [List.mem_map] at h2
      obtain ⟨lab, hmem, he⟩ := h2
      obtain ⟨hne, htr, hnl⟩ := hyg.2.2 (4 * j) (mul4_mem_wordAddrs hj) ls hlab lab hmem
      rw [← he]
      exact goodLine_label lab hne htr hnl
  · simp at h3
    subst h3
    cases hsrc : alGet (discover a).1 (4 * j) with
    | some id => exact goodLine_src id
    | none =>
      have hptr_none : a.read_pointer (4 * j) = none := by
        have hm := srcMap_eq a (mul4_mem_wordAddrs hj)
        rw [hsrc] at hm
        exact Option.map_eq_none'.mp hm.symm
      cases hstr : a.read_string (4 * j) with
      | some s =>
        obtain ⟨hne, htr, hnl, _, _, _, _⟩ :=
          hyg.2.1 (4 * j) (mul4_mem_wordAddrs hj) hptr_none s hstr
        exact ⟨hne, hnl, htr⟩
      | none => exact goodLine_hex _

theorem filter_flatMap {α β : Type} (l : List α) (g : α → List β) (p : β → Bool) :
    (l.flatMap g).filter p = l.flatMap (fun x => (g x).filter p) := by
  induction l with
  | nil => rfl
  | cons x rest ih =>
    rw [List.flatMap_cons, List.flatMap_cons, List.filter_append, ih]

theorem flatMap_singleton_map {α β : Type} (l : List α) (f : α → β) :
    l.flatMap (fun x => [f x]) = l.map f := by
  induction l with
  | nil => rfl
  | cons x rest ih =>
    rw [List.flatMap_cons, List.map_cons, ih]
    rfl

theorem contentBearing_src (id : Nat) : contentBearing (srcLineChars id) = true := by
  unfold contentBearing
  rw [not_label_of_src (hasLead_srcLine id), not_dest_of_src (hasLead_srcLine id)]
  have : (srcLineChars id).isEmpty = false := by
    rw [srcLineChars_eq]
    rfl
  rw [this]
  rfl

theorem contentBearing_hex (bytes : List Nat) :
    contentBearing (hexLineChars bytes) = true := by
  unfold contentBearing
  rw [not_label_of_hex (hasLead_hexLine bytes), not_dest_of_hex (hasLead_hexLine bytes)]
  have : (hexLineChars bytes).isEmpty = false := by
    unfold hexLineChars
    rw [hexPrefixData]
    rfl
  rw [this]
  rfl

theorem isEmpty_false_of_ne_nil {l : List Char} (h : l ≠ []) : l.isEmpty = false := by
  cases l with
  | nil => exact absurd rfl h
  | cons c rest => rfl

theorem addrLines_filter_content (a : BinArchive) (hyg : Hygienic a) {j : Nat}
    (hj : j < wordCount a) :
    (addrLines a (discover a).1 (discover a).2 (4 * j)).filter contentBearing =
      [match alGet (discover a).1 (4 * j) with
       | some id => srcLineChars id
       | none =>
         match a.read_string (4 * j) with
         | some text => text.data
         | none => hexLineChars (a.read_bytes (4 * j) 4)] := by
  unfold addrLines
  rw [List.filter_append, List.filter_append]
  have hA : List.filter contentBearing
      (match alGet (discover a).2 (4 * j) with
       | some id => [destLineChars id]
       | none => []) = [] := by
    cases hdest : alGet (discover a).2 (4 * j) with
    | none => rfl
    | some id =>
      show List.filter contentBearing [destLineChars id] = []
      have : contentBearing (destLineChars id) = false := by
        unfold contentBearing
        rw [hasLead_destLine id]
        simp
      simp [List.filter, this]
  have hB : List.filter contentBearing
      (match a.read_labels (4 * j) with
       | some labels => labels.map labelLineChars
       | none => []) = [] := by
    cases hlab : a.read_labels (4 * j) with
    | none => rfl
    | some ls =>
      show List.filter contentBearing (ls.map labelLineChars) = []
      rw [List.filter_eq_nil_iff]
      intro x hx
      rw [List.mem_map] at hx
      obtain ⟨lab, _, he⟩ := hx
      rw [← he]
      have : contentBearing (labelLineChars lab) = false := by
        unfold contentBearing
        rw [hasLead_labelLine lab]
        simp
      simp [this]
  have hC : List.filter contentBearing
      [match alGet (discover a).1 (4 * j) with
       | some id => srcLineChars id
       | none =>
         match a.read_string (4 * j) with
         | some text => text.data
         | none => hexLineChars (a.read_bytes (4 * j) 4)] =
      [match alGet (discover a).1 (4 * j) with
       | some id => srcLineChars id
       | none =>
         match a.read_string (4 * j) with
         | some text => text.data
         | none => hexLineChars (a.read_bytes (4 * j) 4)] := by
    cases hsrc : alGet (discover a).1 (4 * j) with
    | some id =>
      show List.filter contentBearing [srcLineChars id] = [srcLineChars id]
      simp [List.filter, contentBearing_src id]
    | none =>
      have hptr_none : a.read_pointer (4 * j) = none := by
        have hm := srcMap_eq a (mul4_mem_wordAddrs hj)
        rw [hsrc] at hm
        exact Option.map_eq_none'.mp hm.symm
      cases hstr : a.read_string (4 * j) with
      | some s =>
        obtain ⟨hne, _, _, hD, hS, hL, hX⟩ :=
          hyg.2.1 (4 * j) (mul4_mem_wordAddrs hj) hptr_none s hstr
        show List.filter contentBearing [s.data] = [s.data]
        have : contentBearing s.data = true := by
          unfold contentBearing
          rw [hL, hD, isEmpty_false_of_ne_nil hne]
          rfl
        simp [List.filter, this]
      | none =>
        show List.filter contentBearing [hexLineChars (a.read_bytes (4 * j) 4)] = _
        simp [List.filter, contentBearing_hex]
  rw [hA, hB, hC]
  rfl

theorem unpackLines_content_count (a : BinArchive) (hyg : Hygienic a) :
    ((unpackLines a).filter contentBearing).length = wordCount a := by
  rw [unpackLines_eq_range_flatMap, filter_flatMap]
  rw [flatMap_congr_mem (fun j hj =>
    addrLines_filter_content a hyg (List.mem_range.mp hj))]
  rw [flatMap_singleton_map]
  rw [List.length_map, List.length_range]

theorem map_trim_self {L : List (List Char)} (h : ∀ l ∈ L, trimChars l = l) :
    L.map trimChars = L := by
  induction L with
  | nil => rfl
  | cons x rest ih =>
    rw [List.map_cons, h x (by simp), ih (fun y hy => h y (List.mem_cons_of_mem _ hy))]

theorem unpackLines_good (a : BinArchive) (hyg : Hygienic a) :
    ∀ l ∈ unpackLines a, goodLine l := by
  intro l hl
  rw [unpackLines_eq_range_flatMap] at hl
  rw [List.mem_flatMap] at hl
  obtain ⟨j, hj, hmem⟩ := hl
  exact addrLines_good a hyg (List.mem_range.mp hj) l hmem

theorem unpackLines_ne_nil (a : BinArchive) (hyg : Hygienic a)
    (hn : wordCount a ≠ 0) : unpackLines a ≠ [] := by
  intro h
  have := unpackLines_content_count a hyg
  rw [h] at this
  simp at this
  exact hn this.symm

theorem linesOf_unpack (a : BinArchive) (hyg : Hygienic a) (hn : wordCount a ≠ 0) :
    linesOf (unpack a) = unpackLines a := by
  unfold linesOf unpack
  rw [show (⟨joinNl (unpackLines a)⟩ : String).data = joinNl (unpackLines a) from rfl]
  rw [splitNl_joinNl (unpackLines a) (unpackLines_ne_nil a hyg hn)
    (fun l hl => (unpackLines_good a hyg l hl).2.1)]
  exact map_trim_self (fun l hl => (unpackLines_good a hyg l hl).2.2)

/-! ## The full replay -/

theorem c1_replay (a : BinArchive) (hyg : Hygienic a) :
    ∀ (m k : Nat) (st : PackState) (i : Nat), k + m = wordCount a →
      st.pos = 4 * k → st.pointers = destMapUpTo a k →
      st.pointer_sources = srcListUpTo a k →
      st.archive.data = packedDataUpTo a k →
      st.archive.strings = stringsUpTo a k →
      st.archive.labels = labelsUpTo a k →
      st.archive.pointers = [] →
      ∃ st', packLoop st i ((List.range' k m).flatMap
          (fun j => addrLines a (discover a).1 (discover a).2 (4 * j))) = .ok st' ∧
        st'.pos = 4 * wordCount a ∧
        st'.pointers = destMapUpTo a (wordCount a) ∧
        st'.pointer_sources = srcListUpTo a (wordCount a) ∧
        st'.archive.data = packedDataUpTo a (wordCount a) ∧
        st'.archive.strings = stringsUpTo a (wordCount a) ∧
        st'.archive.labels = labelsUpTo a (wordCount a) ∧
        st'.archive.pointers = [] := by
  intro m
  induction m with
  | zero =>
    intro k st i hk h1 h2 h3 h4 h5 h6 h7
    have hkN : k = wordCount a := by omega
    subst hkN
    exact ⟨st, rfl, h1, h2, h3, h4, h5, h6, h7⟩
  | succ m ih =>
    intro k st i hk h1 h2 h3 h4 h5 h6 h7
    have hkN : k < wordCount a := by omega
    obtain ⟨std, e1, p1, p2, p3, p4, p5, p6, p7⟩ :=
      c1_group_step a hyg k hkN st i h1 h2 h3 h4 h5 h6 h7
    obtain ⟨st', e2, q1, q2, q3, q4, q5, q6, q7⟩ :=
      ih (k + 1) std _ (by omega) p1 p2 p3 p4 p5 p6 p7
    refine ⟨st', ?_, q1, q2, q3, q4, q5, q6, q7⟩
    rw [List.range'_succ, List.flatMap_cons]
    exact packLoop_append_ok e1 e2

/-! ## The resolution pass of the replay -/

theorem mem_srcListUpTo {a : BinArchive} {k : Nat} {p : Nat × List Char} :
    p ∈ srcListUpTo a k ↔
      ∃ j, j < k ∧ ∃ id, alGet (discover a).1 (4 * j) = some id ∧
        p = (4 * j, natToChars id) := by
  unfold srcListUpTo
  rw [List.mem_filterMap]
  constructor
  · rintro ⟨j, hj, he⟩
    rw [List.mem_range] at hj
    rw [Option.map_eq_some'] at he
    obtain ⟨id, hid, he2⟩ := he
    exact ⟨j, hj, id, hid, he2.symm⟩
  · rintro ⟨j, hj, id, hid, he⟩
    refine ⟨j, List.mem_range.mpr hj, ?_⟩
    rw [hid, he]
    rfl

theorem destMap_lookup (a : BinArchive) :
    ∀ (k : Nat) {j0 id : Nat}, j0 < k →
      alGet (discover a).2 (4 * j0) = some id →
      alGet (destMapUpTo a k) (natToChars id) = some (4 * j0) := by
  intro k
  induction k with
  | zero => intro j0 id h; omega
  | succ k ih =>
    intro j0 id hj hdest
    by_cases hjk : j0 < k
    · rw [destMapUpTo_succ, alGet_append, ih hjk hdest]
    · have hj0 : j0 = k := by omega
      rw [hj0] at hdest ⊢
      rw [destMapUpTo_succ_some hdest, alGet_append,
        alGet_destMapUpTo_ge a (le_refl k) hdest]
      show alGet [(natToChars id, 4 * k)] (natToChars id) = some (4 * k)
      simp [alGet]

theorem alGet_destMapFull (a : BinArchive) (hyg : Hygienic a) {w t : Nat}
    (hw : w ∈ wordAddrs a.size) (hp : a.read_pointer w = some t) :
    alGet (destMapUpTo a (wordCount a)) (natToChars (idxOf t (destIdList a)))
      = some t := by
  obtain ⟨ht4, hts⟩ := hyg.1 w hw t hp
  have htW : t = 4 * (t / 4) := by omega
  have hjN : t / 4 < wordCount a := by
    unfold wordCount
    omega
  have hd0 : alGet (discover a).2 (4 * (t / 4)) = some (idxOf t (destIdList a)) := by
    rw [← htW]
    exact destId_eq a (mem_destIdList hw hp)
  have := destMap_lookup a (wordCount a) hjN hd0
  rw [this, ← htW]

theorem resolve_writes (ps : List (List Char × Nat)) (f : Nat → Nat) :
    ∀ (srcs : List (Nat × List Char)) (A : BinArchive),
      (∀ p ∈ srcs, alGet ps p.2 = some (f p.1)) →
      ∃ b, resolve A ps srcs = .ok b ∧ b.data = A.data ∧ b.strings = A.strings ∧
        b.labels = A.labels ∧
        b.pointers = srcs.foldl (fun tbl p => alInsert tbl p.1 (f p.1)) A.pointers := by
  intro srcs
  induction srcs with
  | nil =>
    intro A _
    exact ⟨A, rfl, rfl, rfl, rfl, rfl⟩
  | cons p rest ih =>
    intro A hall
    obtain ⟨addr, tok⟩ := p
    have hp := hall (addr, tok) (by simp)
    obtain ⟨b, hres, hd, hs, hl, hptr⟩ :=
      ih (writePointer A addr (f addr))
        (fun q hq => hall q (List.mem_cons_of_mem _ hq))
    refine ⟨b, ?_, hd, hs, hl, ?_⟩
    · unfold resolve
      rw [hp]
      exact hres
    · rw [hptr]
      rfl

theorem foldl_alInsert_fresh (f : Nat → Nat) :
    ∀ (srcs : List (Nat × List Char)) (tbl : List (Nat × Nat)),
      (srcs.map Prod.fst).Nodup →
      (∀ p ∈ srcs, alGet tbl p.1 = none) →
      srcs.foldl (fun t p => alInsert t p.1 (f p.1)) tbl
        = tbl ++ srcs.map (fun p => (p.1, f p.1)) := by
  intro srcs
  induction srcs with
  | nil =>
    intro tbl _ _
    simp
  | cons p rest ih =>
    intro tbl hnd hfresh
    rw [List.map_cons, List.nodup_cons] at hnd
    obtain ⟨hp1, hnd2⟩ := hnd
    have hfresh2 : ∀ q ∈ rest, alGet (tbl ++ [(p.1, f p.1)]) q.1 = none := by
      intro q hq
      rw [alGet_append, hfresh q (List.mem_cons_of_mem _ hq)]
      have hne : p.1 ≠ q.1 := fun he => hp1 (List.mem_map.mpr ⟨q, hq, he.symm⟩)
      show alGet [(p.1, f p.1)] q.1 = none
      simp [alGet, hne]
    show rest.foldl (fun t q => alInsert t q.1 (f q.1)) (alInsert tbl p.1 (f p.1)) = _
    rw [alInsert_of_none _ (hfresh p (by simp)),
      ih (tbl ++ [(p.1, f p.1)]) hnd2 hfresh2]
    simp

theorem srcList_keys_mem {a : BinArchive} {k x : Nat}
    (h : x ∈ (srcListUpTo a k).map Prod.fst) : ∃ j, j < k ∧ x = 4 * j := by
  rw [List.mem_map] at h
  obtain ⟨p, hp, he⟩ := h
  rw [mem_srcListUpTo] at hp
  obtain ⟨j, hj, id, _, he2⟩ := hp
  refine ⟨j, hj, ?_⟩
  rw [← he, he2]

theorem srcList_keys_nodup (a : BinArchive) (k : Nat) :
    ((srcListUpTo a k).map Prod.fst).Nodup := by
  induction k with
  | zero => exact List.nodup_nil
  | succ k ih =>
    cases hsrc : alGet (discover a).1 (4 * k) with
    | none =>
      rw [srcListUpTo_succ_none hsrc]
      exact ih
    | some id =>
      rw [srcListUpTo_succ_some hsrc, List.map_append]
      refine List.Nodup.append ih (by simp) ?_
      intro x hx hx2
      simp at hx2
      obtain ⟨j, hj, he⟩ := srcList_keys_mem hx
      omega

theorem alGet_srcMapped_ge {a : BinArchive} {k j : Nat} (h : k ≤ j) :
    alGet ((srcListUpTo a k).map (fun p => (p.1, resolvedTarget a p.1))) (4 * j)
      = none := by
  apply alGet_eq_none_of_forall
  intro v hv
  rw [List.mem_map] at hv
  obtain ⟨p, hp, he⟩ := hv
  rw [mem_srcListUpTo] at hp
  obtain ⟨j1, hj1, id, _, he2⟩ := hp
  have h1 : p.1 = 4 * j1 := by rw [he2]
  have hx : (4 * j1 : Nat) = 4 * j := by
    rw [← h1]
    exact congrArg Prod.fst he
  omega

theorem alGet_srcMapped (a : BinArchive) :
    ∀ (k j : Nat), j < wordCount a → j < k →
      alGet ((srcListUpTo a k).map (fun p => (p.1, resolvedTarget a p.1))) (4 * j)
        = a.read_pointer (4 * j) := by
  intro k
  induction k with
  | zero => intro j _ h; omega
  | succ k ih =>
    intro j hjN hjk
    have hwj : 4 * j ∈ wordAddrs a.size := mul4_mem_wordAddrs hjN
    cases hsrc : alGet (discover a).1 (4 * k) with
    | none =>
      rw [srcListUpTo_succ_none hsrc]
      by_cases hj : j < k
      · exact ih j hjN hj
      · have hjeq : j = k := by omega
        subst hjeq
        rw [alGet_srcMapped_ge (le_refl j)]
        have hm := srcMap_eq a hwj
        rw [hsrc] at hm
        exact (Option.map_eq_none'.mp hm.symm).symm
    | some id =>
      rw [srcListUpTo_succ_some hsrc, List.map_append]
      by_cases hj : j < k
      · rw [alGet_append, ih j hjN hj]
        cases hrp : a.read_pointer (4 * j) with
        | some t => rfl
        | none =>
          show alGet [(4 * k, resolvedTarget a (4 * k))] (4 * j) = none
          have hne : (4 * k : Nat) ≠ 4 * j := by omega
          simp [alGet, hne]
      · have hjeq : j = k := by omega
        subst hjeq
        rw [alGet_append, alGet_srcMapped_ge (le_refl j)]
        have hm := srcMap_eq a hwj
        rw [hsrc] at hm
        cases hrp : a.read_pointer (4 * j) with
        | none =>
          rw [hrp] at hm
          exact absurd hm (by simp)
        | some t =>
          show alGet [(4 * j, resolvedTarget a (4 * j))] (4 * j) = some t
          unfold resolvedTarget
          rw [hrp]
          simp [alGet]

/-! ## The packed archive: field lookups -/

theorem binArchive_ext {x y : BinArchive} (h1 : x.data = y.data)
    (h2 : x.pointers = y.pointers) (h3 : x.strings = y.strings)
    (h4 : x.labels = y.labels) : x = y := by
  cases x
  cases y
  simp_all

theorem alGet_rangeTable_ge {β : Type} (g : Nat → Option β) {k j : Nat} (h : k ≤ j) :
    alGet ((List.range k).filterMap (fun i => (g i).map (fun v => (4 * i, v)))) (4 * j)
      = none := by
  apply alGet_eq_none_of_forall
  intro v hv
  rw [List.mem_filterMap] at hv
  obtain ⟨i, hi, he⟩ := hv
  rw [List.mem_range] at hi
  rw [Option.map_eq_some'] at he
  obtain ⟨w, _, he2⟩ := he
  have : 4 * i = 4 * j := congrArg Prod.fst he2
  omega

theorem alGet_rangeTable {β : Type} (g : Nat → Option β) :
    ∀ (k j : Nat), j < k →
      alGet ((List.range k).filterMap (fun i => (g i).map (fun v => (4 * i, v)))) (4 * j)
        = g j := by
  intro k
  induction k with
  | zero => intro j h; omega
  | succ k ih =>
    intro j hj
    rw [filterMap_range_succ, alGet_append]
    by_cases hjk : j < k
    · rw [ih j hjk]
      cases hg : g j with
      | some v => rfl
      | none =>
        cases hgk : g k with
        | none => rfl
        | some w =>
          show alGet [(4 * k, w)] (4 * j) = none
          have hne : (4 * k : Nat) ≠ 4 * j := by omega
          simp [alGet, hne]
    · have hje : j = k := by omega
      rw [hje] at hj ⊢
      rw [alGet_rangeTable_ge g (le_refl k)]
      cases hg : g k with
      | none => rfl
      | some v =>
        show alGet [(4 * k, v)] (4 * k) = some v
        simp [alGet]

theorem stringsUpTo_eq_table (a : BinArchive) (k : Nat) :
    stringsUpTo a k =
      (List.range k).filterMap (fun i => (stringAt a i).map (fun v => (4 * i, v))) := by
  unfold stringsUpTo stringAt
  have hf : (fun j => if alGet (discover a).1 (4 * j) = none then
        (a.read_string (4 * j)).map (fun s => (4 * j, s)) else none)
      = (fun i => (if alGet (discover a).1 (4 * i) = none then
          a.read_string (4 * i) else none).map (fun v => ((4 * i : Nat), v))) := by
    funext i
    by_cases h : alGet (discover a).1 (4 * i) = none
    · rw [if_pos h, if_pos h]
    · rw [if_neg h, if_neg h]
      rfl
  rw [hf]

theorem labelsUpTo_eq_table (a : BinArchive) (k : Nat) :
    labelsUpTo a k =
      (List.range k).filterMap (fun i => (labelsAt a i).map (fun v => (4 * i, v))) := by
  unfold labelsUpTo labelsAt
  have hf : (fun j => match a.read_labels (4 * j) with
        | some (l :: ls) => some (4 * j, l :: ls)
        | _ => none)
      = (fun i => (match a.read_labels (4 * i) with
          | some (l :: ls) => some (l :: ls)
          | _ => none).map (fun v => ((4 * i : Nat), v))) := by
    funext i
    cases h : a.read_labels (4 * i) with
    | none => rfl
    | some ls =>
      cases ls with
      | nil => rfl
      | cons l ls2 => rfl
  rw [hf]

theorem alGet_stringsUpTo (a : BinArchive) {j : Nat} (hj : j < wordCount a) :
    alGet (stringsUpTo a (wordCount a)) (4 * j) = stringAt a j := by
  rw [stringsUpTo_eq_table]
  exact alGet_rangeTable (stringAt a) (wordCount a) j hj

theorem alGet_labelsUpTo (a : BinArchive) {j : Nat} (hj : j < wordCount a) :
    alGet (labelsUpTo a (wordCount a)) (4 * j) = labelsAt a j := by
  rw [labelsUpTo_eq_table]
  exact alGet_rangeTable (labelsAt a) (wordCount a) j hj

theorem packedArchive_size (a : BinArchive) :
    (packedArchive a).size = 4 * wordCount a := by
  show (packedDataUpTo a (wordCount a)).length = 4 * wordCount a
  exact length_packedDataUpTo a (wordCount a)

theorem wordCount_packedArchive (a : BinArchive) :
    wordCount (packedArchive a) = wordCount a := by
  unfold wordCount
  rw [show (packedArchive a).size = 4 * wordCount a from packedArchive_size a]
  unfold wordCount
  omega

theorem wordAddrs_packedArchive (a : BinArchive) :
    wordAddrs (packedArchive a).size = wordAddrs a.size := by
  unfold wordAddrs
  have h := wordCount_packedArchive a
  unfold wordCount at h
  rw [h]

theorem packedArchive_read_pointer (a : BinArchive) {j : Nat} (hj : j < wordCount a) :
    (packedArchive a).read_pointer (4 * j) = a.read_pointer (4 * j) := by
  unfold BinArchive.read_pointer packedArchive
  exact alGet_srcMapped a (wordCount a) j hj hj

theorem packedArchive_read_string (a : BinArchive) {j : Nat} (hj : j < wordCount a) :
    (packedArchive a).read_string (4 * j) = stringAt a j := by
  unfold BinArchive.read_string packedArchive
  exact alGet_stringsUpTo a hj

theorem packedArchive_read_labels (a : BinArchive) {j : Nat} (hj : j < wordCount a) :
    (packedArchive a).read_labels (4 * j) = labelsAt a j := by
  unfold BinArchive.read_labels packedArchive
  exact alGet_labelsUpTo a hj

theorem packedArchive_getD (a : BinArchive) (idx : Nat) :
    (packedArchive a).data.getD idx 0 = packedByte a (wordCount a) idx := by
  show (packedDataUpTo a (wordCount a)).getD idx 0 = _
  rw [getD_packedDataUpTo]
  by_cases h : idx < 4 * wordCount a
  · rw [if_pos h]
  · rw [if_neg h]
    unfold packedByte
    rw [if_neg (by omega)]

theorem packedArchive_read_pointer_mem (a : BinArchive) {w : Nat}
    (hw : w ∈ wordAddrs a.size) :
    (packedArchive a).read_pointer w = a.read_pointer w := by
  rw [mem_wordAddrs_iff] at hw
  have hj : w = 4 * (w / 4) := by omega
  have hjN : w / 4 < wordCount a := by
    unfold wordCount
    omega
  rw [hj]
  exact packedArchive_read_pointer a hjN

theorem discover_packedArchive (a : BinArchive) :
    discover (packedArchive a) = discover a := by
  unfold discover
  rw [wordAddrs_packedArchive]
  apply foldl_congr_mem
  intro st w hw
  unfold discoverStep
  rw [packedArchive_read_pointer_mem a hw]

/-! ## Re-unpacking the packed archive -/

theorem addrLines_packedArchive (a : BinArchive) {j : Nat} (hj : j < wordCount a) :
    addrLines (packedArchive a) (discover a).1 (discover a).2 (4 * j)
      = addrLines a (discover a).1 (discover a).2 (4 * j) := by
  unfold addrLines
  rw [packedArchive_read_labels a hj, packedArchive_read_string a hj]
  rw [read_bytes_four, read_bytes_four]
  rw [packedArchive_getD, packedArchive_getD, packedArchive_getD, packedArchive_getD]
  unfold labelsAt stringAt packedByte
  have hd0 : 4 * j / 4 = j := by omega
  have hd1 : (4 * j + 1) / 4 = j := by omega
  have hd2 : (4 * j + 2) / 4 = j := by omega
  have hd3 : (4 * j + 3) / 4 = j := by omega
  rw [hd0, hd1, hd2, hd3]
  simp only [if_pos hj]
  cases hL : a.read_labels (4 * j) with
  | none =>
    cases hsrc : alGet (discover a).1 (4 * j) with
    | some id => simp
    | none =>
      cases hstr : a.read_string (4 * j) with
      | some s => simp
      | none => simp [hexLineChars, byteToHexChars_mod]
  | some ls =>
    cases ls with
    | nil =>
      cases hsrc : alGet (discover a).1 (4 * j) with
      | some id => simp
      | none =>
        cases hstr : a.read_string (4 * j) with
        | some s => simp
        | none => simp [hexLineChars, byteToHexChars_mod]
    | cons l ls2 =>
      cases hsrc : alGet (discover a).1 (4 * j) with
      | some id => simp
      | none =>
        cases hstr : a.read_string (4 * j) with
        | some s => simp
        | none => simp [hexLineChars, byteToHexChars_mod]

theorem unpackLines_packedArchive (a : BinArchive) :
    unpackLines (packedArchive a) = unpackLines a := by
  rw [unpackLines_eq_range_flatMap, unpackLines_eq_range_flatMap]
  rw [discover_packedArchive, wordCount_packedArchive]
  apply flatMap_congr_mem
  intro j hj
  exact addrLines_packedArchive a (List.mem_range.mp hj)

theorem unpack_packedArchive (a : BinArchive) :
    unpack (packedArchive a) = unpack a := by
  unfold unpack
  rw [unpackLines_packedArchive]

/-! ## Resolving the packed pointers -/

theorem srcList_resolves (a : BinArchive) (hyg : Hygienic a) :
    ∀ p ∈ srcListUpTo a (wordCount a),
      alGet (destMapUpTo a (wordCount a)) p.2 = some (resolvedTarget a p.1) := by
  intro p hp
  rw [mem_srcListUpTo] at hp
  obtain ⟨j, hj, id, hid, he⟩ := hp
  have hwj : 4 * j ∈ wordAddrs a.size := mul4_mem_wordAddrs hj
  have hm := srcMap_eq a hwj
  rw [hid] at hm
  cases hrp : a.read_pointer (4 * j) with
  | none =>
    rw [hrp] at hm
    exact absurd hm (by simp)
  | some t =>
    rw [hrp] at hm
    have hidt : id = idxOf t (destIdList a) := by simpa using hm
    have hfull := alGet_destMapFull a hyg hwj hrp
    rw [he]
    show alGet (destMapUpTo a (wordCount a)) (natToChars id)
      = some (resolvedTarget a (4 * j))
    rw [hidt, hfull]
    unfold resolvedTarget
    rw [hrp]
    rfl

theorem pack_unpack_ok (a : BinArchive) (hyg : Hygienic a) (hn : wordCount a ≠ 0) :
    pack (unpack a) = .ok (packedArchive a) := by
  have hlines : linesOf (unpack a) = unpackLines a := linesOf_unpack a hyg hn
  have hdata : (packInit (unpack a)).archive.data = packedDataUpTo a 0 := by
    show List.replicate (((linesOf (unpack a)).filter contentBearing).length * 4) 0 = _
    rw [hlines, unpackLines_content_count a hyg, packedDataUpTo_zero,
      Nat.mul_comm (wordCount a) 4]
  obtain ⟨st', hloop, q1, q2, q3, q4, q5, q6, q7⟩ :=
    c1_replay a hyg (wordCount a) 0 (packInit (unpack a)) 0 (by omega)
      rfl rfl rfl hdata rfl rfl rfl
  have hloop2 : packLoop (packInit (unpack a)) 0 (linesOf (unpack a)) = .ok st' := by
    rw [hlines, unpackLines_eq_range_flatMap, List.range_eq_range']
    exact hloop
  unfold pack
  rw [hloop2]
  show resolve st'.archive st'.pointers st'.pointer_sources = .ok (packedArchive a)
  rw [q2, q3]
  obtain ⟨b, hres, hd, hs, hl, hp⟩ :=
    resolve_writes (destMapUpTo a (wordCount a)) (resolvedTarget a)
      (srcListUpTo a (wordCount a)) st'.archive (srcList_resolves a hyg)
  rw [hres]
  have hb : b = packedArchive a := by
    apply binArchive_ext
    · rw [hd, q4]
      rfl
    · rw [hp, q7]
      rw [foldl_alInsert_fresh (resolvedTarget a) (srcListUpTo a (wordCount a)) []
        (srcList_keys_nodup a (wordCount a)) (fun p hp2 => rfl)]
      rw [List.nil_append]
      rfl
    · rw [hs, q5]
      rfl
    · rw [hl, q6]
      rfl
  rw [hb]

/-! ## Hygiene soundness and the round trip -/

theorem hygienic_of_B (a : BinArchive) (h : hygienicB a = true) : Hygienic a := by
  unfold hygienicB at h
  rw [List.all_eq_true] at h
  refine ⟨?_, ?_, ?_⟩
  · intro w hw t hp
    have hb := h w hw
    simp only [Bool.and_eq_true] at hb
    obtain ⟨hb1, _⟩ := hb
    rw [hp] at hb1
    simp at hb1
    exact hb1
  · intro w hw hpn s hs
    have hb := h w hw
    simp only [Bool.and_eq_true] at hb
    obtain ⟨hb1, _⟩ := hb
    rw [hpn, hs] at hb1
    simp only [Bool.and_eq_true, decide_eq_true_eq, Bool.not_eq_true'] at hb1
    exact ⟨hb1.1.1.1.1.1.1, hb1.1.1.1.1.1.2, hb1.1.1.1.1.2, hb1.1.1.1.2,
      hb1.1.1.2, hb1.1.2, hb1.2⟩
  · intro w hw ls hls l hl
    have hb := h w hw
    simp only [Bool.and_eq_true] at hb
    obtain ⟨_, hb2⟩ := hb
    rw [hls] at hb2
    simp only [List.all_eq_true] at hb2
    have hb3 := hb2 l hl
    simp only [Bool.and_eq_true, decide_eq_true_eq] at hb3
    exact ⟨hb3.1.1, hb3.1.2, hb3.2⟩

/-- C1: round-trip identity, amended.  For every archive in which no address
carries both labels and a pointer source, and whose stored contents are
hygienic (every pointer target is an in-range word address; every stored
string is nonempty, trim-stable, newline-free and does not begin with
`DEST:`, `SRC:`, `LABEL:` or `0x`; every label is nonempty, trim-stable and
newline-free), `pack (unpack a)` succeeds and the archive it returns
re-unpacks to text identical to `unpack a`. -/
theorem c1_round_trip (a : BinArchive) (_hno : NoLabelSourceOverlap a)
    (hyg : Hygienic a) :
    ∃ b, pack (unpack a) = Except.ok b ∧ unpack b = unpack a := by
  by_cases hn : wordCount a = 0
  · have hlines0 : unpackLines a = [] := by
      unfold unpackLines wordAddrs
      unfold wordCount at hn
      rw [hn]
      rfl
    have hu : unpack a = "" := by
      unfold unpack
      rw [hlines0]
      rfl
    refine ⟨{ data := [], pointers := [], strings := [(0, "")], labels := [] }, ?_, ?_⟩
    · rw [hu]
      rfl
    · rw [hu]
      rfl
  · exact ⟨packedArchive a, pack_unpack_ok a hyg hn, unpack_packedArchive a⟩

/-- The unamended C1 is false: `paddedStringArchive` satisfies the claim's
no-label/source-overlap side condition, `pack (unpack _)` succeeds on it,
yet the stored string " x" is trimmed to "x" on the way through the text,
so re-unpacking yields different text. -/
theorem c1_counterexample :
    NoLabelSourceOverlap paddedStringArchive ∧
    pack (unpack paddedStringArchive) = Except.ok
      { data := [0, 0, 0, 0], pointers := [], strings := [(0, "x")], labels := [] } ∧
    unpack { data := [0, 0, 0, 0], pointers := [], strings := [(0, "x")], labels := [] }
      ≠ unpack paddedStringArchive :=
  ⟨by unfold NoLabelSourceOverlap; decide, by rfl, by decide⟩

/-- Witness for C1 at `mixedArchive`: two cross-pointing sources, a string,
two labels and one raw data word. -/
theorem c1_witness :
    NoLabelSourceOverlap mixedArchive ∧ hygienicB mixedArchive = true ∧
    ∃ b, pack (unpack mixedArchive) = Except.ok b ∧ unpack b = unpack mixedArchive :=
  ⟨by unfold NoLabelSourceOverlap; decide, by decide,
    c1_round_trip mixedArchive (by unfold NoLabelSourceOverlap; decide)
      (hygienic_of_B mixedArchive (by decide))⟩

end AssetPack
